import Mathlib

/-!
# Debug-extension backend (`debug-extension/vm/main.go`)

A shallow embedding of the diagnostic handlers of the debug backend service
(`env`, `system`, `filesystem`, `processes`, `network`) together with the
fragments of the Go `strings` and `sort` packages they call.

Conventions of the embedding

* A Go `string` is modelled by the list of its runes, `Str := List Char`
  (texts are taken to be valid UTF-8, where byte-wise and rune-wise
  prefix/substring/ordering tests agree).
* A Go `map[string]T` is an association list with pairwise distinct keys;
  `mapSet` is the assignment `m[k] = v` and `mapGet` the lookup. The order
  of the list is an artefact of the model: Go enumerates a map in no fixed
  order, so a loop over a map takes the enumeration as an argument.
* Loops are folds (or recursive functions carrying the loop index) whose
  accumulators are the variables the Go loop updates.
* The ambient operating system (environment, files, directories, commands,
  network interfaces) is an explicit value of type `OS`; every query returns
  `Except error result`.
* A handler returns a `Response`: the HTTP status and the top-level JSON map.
-/

namespace DebugBackend

/-- A Go string, as the list of its runes. -/
abbrev Str := List Char

/-! ## Package `strings` -/

/-- Rune test `unicode.IsSpace`: the white-space code points of Unicode. -/
def isSpace (c : Char) : Bool :=
  let n := c.toNat
  (9 ≤ n && n ≤ 13) || n == 32 || n == 0x85 || n == 0xA0 || n == 0x1680 ||
  (0x2000 ≤ n && n ≤ 0x200A) || n == 0x2028 || n == 0x2029 || n == 0x202F ||
  n == 0x205F || n == 0x3000

/-- Go `strings.TrimSpace`: drop leading and trailing white space. -/
def trimSpace (s : Str) : Str :=
  ((s.dropWhile isSpace).reverse.dropWhile isSpace).reverse

/-- Loop of `strings.Fields`: `cur` is the field being read. -/
def fieldsGo : Str → Str → List Str
  | cur, [] => if cur = [] then [] else [cur]
  | cur, c :: cs =>
    if isSpace c then
      (if cur = [] then fieldsGo [] cs else cur :: fieldsGo [] cs)
    else fieldsGo (cur ++ [c]) cs

/-- Go `strings.Fields`: the maximal runs of non-space runes. -/
def fields (s : Str) : List Str := fieldsGo [] s

/-- Loop of `strings.Split` for a one-rune separator. -/
def splitGo (sep : Char) : Str → Str → List Str
  | cur, [] => [cur]
  | cur, c :: cs =>
    if c = sep then cur :: splitGo sep [] cs else splitGo sep (cur ++ [c]) cs

/-- Go `strings.Split(s, sep)` for a one-rune separator `sep`. -/
def split (s : Str) (sep : Char) : List Str := splitGo sep [] s

/-- Go `strings.SplitN(s, sep, 2)` for a one-rune separator: cut at the first
separator if there is one. -/
def splitN2 (s : Str) (sep : Char) : List Str :=
  match s.dropWhile (fun c => c != sep) with
  | [] => [s]
  | _ :: after => [s.takeWhile (fun c => c != sep), after]

/-- Go `strings.HasPrefix`. -/
def hasPrefix : Str → Str → Bool
  | _, [] => true
  | [], _ :: _ => false
  | c :: cs, p :: ps => c == p && hasPrefix cs ps

/-- Go `strings.Contains`: `sub` occurs in `s` as a contiguous block. -/
def contains : Str → Str → Bool
  | [], sub => hasPrefix [] sub
  | c :: cs, sub => hasPrefix (c :: cs) sub || contains cs sub

/-- Go `strings.ToLower` on valid UTF-8: map `unicode.ToLower` over the runes.
The case table `lowerRune` is a parameter. -/
def toLower (lowerRune : Char → Char) (s : Str) : Str := s.map lowerRune

/-- Go `strings.Join`. -/
def join (xs : List Str) (sep : Str) : Str := sep.intercalate xs

/-- Go `strings.TrimPrefix`. -/
def trimPrefix (s p : Str) : Str := if hasPrefix s p then s.drop p.length else s

/-- Go `strings.TrimSuffix`. -/
def trimSuffix (s p : Str) : Str :=
  if hasPrefix s.reverse p.reverse then (s.reverse.drop p.length).reverse else s

/-- Go `strings.Trim(s, cutset)`: drop leading and trailing runes of `cutset`. -/
def trim (s cutset : Str) : Str :=
  ((s.dropWhile (fun c => cutset.contains c)).reverse.dropWhile
    (fun c => cutset.contains c)).reverse

/-- Go string comparison `a < b`: lexicographic on the code points. -/
def strLt : Str → Str → Bool
  | [], [] => false
  | [], _ :: _ => true
  | _ :: _, [] => false
  | a :: as, b :: bs => if a < b then true else if b < a then false else strLt as bs

/-- Go string comparison `a <= b`. -/
def strLe (a b : Str) : Bool := !strLt b a

/-- Go `sort.Strings`: the ascending rearrangement of the slice. -/
def sortStrings (l : List Str) : List Str :=
  l.insertionSort (fun a b => strLe a b = true)

/-! ## Go maps and JSON values -/

/-- A Go `map[string]T`: association list with pairwise distinct keys. -/
abbrev GoMap (β : Type) := List (Str × β)

/-- Map assignment `m[k] = v`. -/
def mapSet {β : Type} : GoMap β → Str → β → GoMap β
  | [], k, v => [(k, v)]
  | (k', v') :: rest, k, v =>
    if k' = k then (k, v) :: rest else (k', v') :: mapSet rest k v

/-- Map lookup `v, ok := m[k]`. -/
def mapGet {β : Type} : GoMap β → Str → Option β
  | [], _ => none
  | (k', v') :: rest, k => if k' = k then some v' else mapGet rest k

/-- The keys of a map, as enumerated by one `range` over it. -/
def mapKeys {β : Type} (m : GoMap β) : List Str := m.map Prod.fst

/-- A JSON value as produced by `c.JSON`. -/
inductive JSON where
  | str : Str → JSON
  | num : Int → JSON
  | bool : Bool → JSON
  | arr : List JSON → JSON
  | obj : List (Str × JSON) → JSON

/-- Encoding of a `[]string`. -/
def JSON.ofStrings (l : List Str) : JSON := .arr (l.map .str)

/-- Encoding of a `map[string]string`. -/
def JSON.ofStrMap (m : GoMap Str) : JSON := .obj (m.map fun kv => (kv.1, .str kv.2))

/-- Encoding of a `[]map[string]string`. -/
def JSON.ofStrMaps (l : List (GoMap Str)) : JSON := .arr (l.map JSON.ofStrMap)

/-- An HTTP response: status code and the top-level JSON map. -/
structure Response where
  status : Nat
  body : GoMap JSON

/-- The constant `http.StatusOK`. -/
def statusOK : Nat := 200

/-! ## The operating system as seen by the handlers -/

/-- Result of `entry.Info()` when it succeeds: `Size()`, `Mode().String()` and
`ModTime().Format(time.RFC3339)`. -/
structure FileInfo where
  size : Int
  mode : Str
  modTime : Str

/-- One `os.DirEntry`: `Name()`, `IsDir()`, `Type().String()` and the outcome of
`Info()` (`none` when the metadata is not retrievable). -/
structure DirEntry where
  name : Str
  isDir : Bool
  type : Str
  info : Option FileInfo

/-- One `net.Interface`, with `Flags.String()`, `HardwareAddr.String()` (`none`
for a nil address) and the rendered addresses of `Addrs()` (empty on failure). -/
structure Iface where
  name : Str
  mtu : Int
  flags : Str
  mac : Option Str
  addrs : List Str

/-- The external collaborators: each query yields an error text or a result.
The field `environ` is the slice returned by `os.Environ()`; the Go runtime
hands out at most one entry per key (of a repeated key it keeps the first
entry), so the properties of `env` that depend on it are stated for
environments whose keys are pairwise distinct. -/
structure OS where
  environ : List Str
  hostname : Except Str Str
  readFile : Str → Except Str Str
  readDir : Str → Except Str (List DirEntry)
  output : Str → List Str → Except Str Str
  interfaces : Except Str (List Iface)

/-! ## Handler `env` -/

/-- Body of the first loop of `env`: handle the entry `e` of `os.Environ()`. -/
def envStep (lowerRune : Char → Char) (filter : Str) (m : GoMap Str) (e : Str) : GoMap Str :=
  match splitN2 e '=' with
  | [key, value] =>
    if filter ≠ [] ∧ contains (toLower lowerRune key) (toLower lowerRune filter) = false
    then m else mapSet m key value
  | _ => m

/-- First loop of `env`: build `envVars` from `os.Environ()`. -/
def envVars (lowerRune : Char → Char) (filter : Str) (environ : List Str) : GoMap Str :=
  environ.foldl (envStep lowerRune filter) []

/-- Second and third loop of `env`: `keys` is the enumeration of the keys of
`m`; they are sorted and each is paired with its value. -/
def sortedEnvOf (m : GoMap Str) (keys : List Str) : List (GoMap Str) :=
  (sortStrings keys).foldl (fun sortedEnv k =>
    sortedEnv ++ [[("name".toList, k), ("value".toList, (mapGet m k).getD [])]]) []

/-- The slice `sortedEnv` of `env`. -/
def envVariables (lowerRune : Char → Char) (filter : Str) (environ : List Str) :
    List (GoMap Str) :=
  let m := envVars lowerRune filter environ
  sortedEnvOf m (mapKeys m)

/-- Handler `env`. -/
def env (lowerRune : Char → Char) (os : OS) (filter : Str) : Response :=
  let sortedEnv := envVariables lowerRune filter os.environ
  { status := statusOK
    body := [("count".toList, .num sortedEnv.length),
             ("filter".toList, .str filter),
             ("variables".toList, JSON.ofStrMaps sortedEnv)] }

/-! ## Handler `system` -/

/-- Loop over `/etc/os-release`. -/
def parseOsRelease (text : Str) : GoMap Str :=
  (split text '\n').foldl (fun osInfo line =>
    if trimSpace line = [] ∨ hasPrefix line "#".toList = true then osInfo
    else match splitN2 line '=' with
      | [key, value] => mapSet osInfo key (trim value "\"".toList)
      | _ => osInfo) []

/-- Loop over `/proc/meminfo`. -/
def parseMemInfo (text : Str) : GoMap Str :=
  (split text '\n').foldl (fun memMap line =>
    if hasPrefix line "MemTotal:".toList = true ∨
       hasPrefix line "MemFree:".toList = true ∨
       hasPrefix line "MemAvailable:".toList = true ∨
       hasPrefix line "Buffers:".toList = true ∨
       hasPrefix line "Cached:".toList = true then
      let parts := fields line
      if 2 ≤ parts.length then
        mapSet memMap (trimSuffix (parts.getD 0 []) ":".toList) (join (parts.drop 1) " ".toList)
      else memMap
    else memMap) []

/-- Loop over `/proc/cpuinfo`: the pair `(cpuCount, modelName)`. -/
def parseCpuInfo (text : Str) : Nat × Str :=
  (split text '\n').foldl (fun st line =>
    let cpuCount := if hasPrefix line "processor".toList = true then st.1 + 1 else st.1
    let modelName :=
      if hasPrefix line "model name".toList = true ∧ st.2 = [] then
        match splitN2 line ':' with
        | [_, v] => trimSpace v
        | _ => st.2
      else st.2
    (cpuCount, modelName)) (0, [])

/-- One `uname` step of `system`: attach the trimmed output under `key`. -/
def attachUname (os : OS) (flag key : Str) (result : GoMap JSON) : GoMap JSON :=
  match os.output "uname".toList [flag] with
  | .ok out => mapSet result key (.str (trimSpace out))
  | .error _ => result

/-- The `/etc/os-release` step of `system`. -/
def attachOsRelease (os : OS) (result : GoMap JSON) : GoMap JSON :=
  match os.readFile "/etc/os-release".toList with
  | .ok osRelease => mapSet result "osRelease".toList (JSON.ofStrMap (parseOsRelease osRelease))
  | .error _ => result

/-- The `/proc/meminfo` step of `system`. -/
def attachMemory (os : OS) (result : GoMap JSON) : GoMap JSON :=
  match os.readFile "/proc/meminfo".toList with
  | .ok memInfo => mapSet result "memory".toList (JSON.ofStrMap (parseMemInfo memInfo))
  | .error _ => result

/-- The `/proc/cpuinfo` step of `system`. -/
def attachCpu (os : OS) (result : GoMap JSON) : GoMap JSON :=
  match os.readFile "/proc/cpuinfo".toList with
  | .ok cpuInfo =>
    let st := parseCpuInfo cpuInfo
    mapSet result "cpu".toList
      (.obj [("count".toList, .num st.1), ("model".toList, .str st.2)])
  | .error _ => result

/-- Handler `system`. -/
def system (os : OS) : Response :=
  let result : GoMap JSON := []
  let result := attachUname os "-a".toList "uname".toList result
  let result := attachUname os "-s".toList "kernelName".toList result
  let result := attachUname os "-r".toList "kernelRelease".toList result
  let result := attachUname os "-m".toList "machine".toList result
  let result := attachOsRelease os result
  let result := attachMemory os result
  let result := attachCpu os result
  { status := statusOK, body := result }

/-! ## Handler `filesystem` -/

/-- Body of the loop over the directory entries: the map `fileInfo`. -/
def fileInfo (entry : DirEntry) : GoMap JSON :=
  let fileInfo : GoMap JSON :=
    [("name".toList, .str entry.name), ("isDir".toList, .bool entry.isDir),
     ("type".toList, .str entry.type)]
  match entry.info with
  | some info =>
    mapSet (mapSet (mapSet fileInfo "size".toList (.num info.size))
      "mode".toList (.str info.mode)) "modTime".toList (.str info.modTime)
  | none => fileInfo

/-- Loop over the lines of `/proc/mounts`: the slice `mountInfo`. -/
def parseMounts (text : Str) : List (GoMap Str) :=
  (split text '\n').foldl (fun mountInfo line =>
    let fs := fields line
    if 4 ≤ fs.length then
      mountInfo ++ [[("device".toList, fs.getD 0 []), ("mountPoint".toList, fs.getD 1 []),
                     ("fsType".toList, fs.getD 2 []), ("options".toList, fs.getD 3 [])]]
    else mountInfo) []

/-- The effective path of `filesystem`: `/` when the parameter is empty. -/
def effectivePath (pathParam : Str) : Str :=
  if pathParam = [] then "/".toList else pathParam

/-- The mount step of `filesystem`: only for the path `/`, and only when
`/proc/mounts` can be read. -/
def attachMounts (os : OS) (path : Str) (result : GoMap JSON) : GoMap JSON :=
  if path = "/".toList then
    match os.readFile "/proc/mounts".toList with
    | .ok mounts => mapSet result "mounts".toList (JSON.ofStrMaps (parseMounts mounts))
    | .error _ => result
  else result

/-- Handler `filesystem`. -/
def filesystem (os : OS) (pathParam : Str) : Response :=
  let path := effectivePath pathParam
  let result : GoMap JSON := mapSet [] "path".toList (.str path)
  match os.readDir path with
  | .error err =>
    { status := statusOK, body := [("path".toList, .str path), ("error".toList, .str err)] }
  | .ok entries =>
    let files := entries.foldl (fun files entry => files ++ [fileInfo entry]) []
    let result := mapSet result "entries".toList (.arr (files.map .obj))
    let result := mapSet result "count".toList (.num files.length)
    let result := attachMounts os path result
    { status := statusOK, body := result }

/-! ## Handler `processes` -/

/-- Inner loop `for j, h := range headers` filling the map `proc`; `n` is
`len(headers)` and `j` the index of the first header still to be handled. -/
def procLoop (n : Nat) (fs : List Str) : Nat → List Str → GoMap Str → GoMap Str
  | _, [], proc => proc
  | j, h :: hs, proc =>
    if j = n - 1 then procLoop n fs (j + 1) hs (mapSet proc h (join (fs.drop j) " ".toList))
    else procLoop n fs (j + 1) hs (mapSet proc h (fs.getD j []))

/-- The map `proc` built for one process line with fields `fs`. -/
def procEntry (headers fs : List Str) : GoMap Str :=
  procLoop headers.length fs 0 headers []

/-- Outer loop `for i, line := range lines` of `processes`, started at index
`i` with the current `headers` and `processes`. -/
def processesLoop : Nat → List Str → List Str → List (GoMap Str) → List (GoMap Str)
  | _, [], _, processes => processes
  | i, line :: rest, headers, processes =>
    if trimSpace line = [] then processesLoop (i + 1) rest headers processes
    else if i = 0 then processesLoop (i + 1) rest (fields line) processes
    else
      let fs := fields line
      if headers.length ≤ fs.length then
        processesLoop (i + 1) rest headers (processes ++ [procEntry headers fs])
      else processesLoop (i + 1) rest headers processes

/-- The slice `processes` computed from the output of `ps aux`. -/
def parseProcesses (psOutput : Str) : List (GoMap Str) :=
  processesLoop 0 (split psOutput '\n') [] []

/-- Handler `processes`. -/
def processes (os : OS) : Response :=
  let result : GoMap JSON := []
  let result :=
    match os.output "ps".toList ["aux".toList] with
    | .ok psOutput =>
      let processes := parseProcesses psOutput
      mapSet (mapSet result "processes".toList (JSON.ofStrMaps processes))
        "count".toList (.num processes.length)
    | .error err => mapSet result "error".toList (.str ("Failed to get processes: ".toList ++ err))
  { status := statusOK, body := result }

/-! ## Handler `network` -/

/-- Body of the loop over the interfaces: the map `info`. -/
def ifaceInfo (iface : Iface) : GoMap JSON :=
  let info : GoMap JSON :=
    [("name".toList, .str iface.name), ("mtu".toList, .num iface.mtu),
     ("flags".toList, .str iface.flags)]
  let info := match iface.mac with
    | some mac => mapSet info "mac".toList (.str mac)
    | none => info
  let addrStrings := iface.addrs.foldl (fun acc addr => acc ++ [addr]) []
  mapSet info "addresses".toList (JSON.ofStrings addrStrings)

/-- Loop over `/etc/resolv.conf`: the pair `(nameservers, searchDomains)`. -/
def parseResolv (text : Str) : List Str × List Str :=
  (split text '\n').foldl (fun st line0 =>
    let line := trimSpace line0
    let nameservers :=
      if hasPrefix line "nameserver ".toList = true
      then st.1 ++ [trimPrefix line "nameserver ".toList] else st.1
    let searchDomains :=
      if hasPrefix line "search ".toList = true
      then fields (trimPrefix line "search ".toList) else st.2
    (nameservers, searchDomains)) ([], [])

/-- Loop over `/etc/hosts`: the slice `hostEntries`. -/
def parseHosts (text : Str) : List Str :=
  (split text '\n').foldl (fun hostEntries line0 =>
    let line := trimSpace line0
    if line ≠ [] ∧ hasPrefix line "#".toList = false then hostEntries ++ [line]
    else hostEntries) []

/-- Handler `network`. -/
def network (os : OS) : Response :=
  let result : GoMap JSON := []
  let result := match os.hostname with
    | .ok hostname => mapSet result "hostname".toList (.str hostname)
    | .error _ => result
  let result := match os.interfaces with
    | .ok interfaces =>
      let infos := interfaces.foldl (fun acc iface => acc ++ [ifaceInfo iface]) []
      mapSet result "interfaces".toList (.arr (infos.map .obj))
    | .error _ => result
  let result := match os.readFile "/etc/resolv.conf".toList with
    | .ok resolv =>
      let st := parseResolv resolv
      mapSet result "dns".toList
        (.obj [("nameservers".toList, JSON.ofStrings st.1),
               ("searchDomains".toList, JSON.ofStrings st.2)])
    | .error _ => result
  let result := match os.readFile "/etc/hosts".toList with
    | .ok hosts => mapSet result "hosts".toList (JSON.ofStrings (parseHosts hosts))
    | .error _ => result
  { status := statusOK, body := result }

/-! ## Definitions used to state the properties -/

/-- The `name` field of an entry of `variables`. -/
def entryName (v : GoMap Str) : Str := (mapGet v "name".toList).getD []

/-- The value stored under the header of index `j` by the inner loop of
`processes`, for `n` headers and the fields `fs` of the line. -/
def procValue (n : Nat) (fs : List Str) (j : Nat) : Str :=
  if j = n - 1 then join (fs.drop j) " ".toList else fs.getD j []

/-- Entries of the data lines `ls` read against the column names `headers`:
one entry, in order, per non-blank line with at least as many fields as there
are column names. -/
def dataEntries (headers : List Str) (ls : List Str) : List (GoMap Str) :=
  (ls.filter (fun l => decide (trimSpace l ≠ [] ∧ headers.length ≤ (fields l).length))).map
    (fun l => procEntry headers (fields l))

/-- The process list as the specification words it: the header row is the
first non-blank line of the output, every later line is a data line. -/
def processesByFirstNonBlank (psOutput : Str) : List (GoMap Str) :=
  match (split psOutput '\n').dropWhile (fun l => decide (trimSpace l = [])) with
  | [] => []
  | hdr :: rest => dataEntries (fields hdr) rest

/-- The hosts list as the specification words it: the lines that are neither
blank nor start with `#`, each kept verbatim. -/
def hostsVerbatim (text : Str) : List Str :=
  (split text '\n').filter
    (fun l => decide (trimSpace l ≠ [] ∧ hasPrefix l "#".toList = false))

/-- A host on which no directory can be listed; no files, no commands. -/
def osNoListing : OS :=
  { environ := []
    hostname := .error "no hostname".toList
    readFile := fun _ => .error "no such file".toList
    readDir := fun _ => .error "permission denied".toList
    output := fun _ _ => .error "not found".toList
    interfaces := .error "no interfaces".toList }

/-- A host whose root directory lists (empty) but with nothing else readable. -/
def osNoMounts : OS :=
  { osNoListing with readDir := fun _ => .ok [] }

/-- Sample output of `ps aux`: a header row and one process line. -/
def psSample : Str :=
  "USER PID %CPU %MEM COMMAND\nroot 1 0.0 0.1 /sbin/init --switch".toList

/-- Header row of `psSample`. -/
def psSampleHeader : Str := "USER PID %CPU %MEM COMMAND".toList

/-- Process line of `psSample`. -/
def psSampleLine : Str := "root 1 0.0 0.1 /sbin/init --switch".toList

/-- Sample output of `ps aux` with a short line among the process lines. -/
def psShortSample : Str := "PID TTY CMD\n1 ? init -v\n\n2 ?\n3 ? sh".toList

/-- Output of a listing command that starts with a blank line. -/
def psBlankFirst : Str := "\nA B\nx y".toList

/-! ## `main`: the socket directory -/

/-- Loop of `strings.LastIndex` for a one-rune separator: `i` is the index of
the rune being read and `last` the index of the last separator seen so far. -/
def lastIndexGo (sep : Char) : Str → Nat → Int → Int
  | [], _, last => last
  | c :: cs, i, last => lastIndexGo sep cs (i + 1) (if c = sep then (i : Int) else last)

/-- Go `strings.LastIndex(s, sep)` for a one-rune separator: the index of the
last occurrence of `sep`, or `-1` when there is none. -/
def lastIndex (s : Str) (sep : Char) : Int := lastIndexGo sep s 0 (-1)

/-- Go slice expression `s[:i]`: `none` is the run-time panic raised when `i`
is negative or beyond the length of `s`. -/
def sliceTo (s : Str) (i : Int) : Option Str :=
  if 0 ≤ i ∧ i ≤ (s.length : Int) then some (s.take i.toNat) else none

/-- The value `socketDir` computed by `main`:
`socketPath[:strings.LastIndex(socketPath, "/")]`. -/
def socketDir (socketPath : Str) : Option Str :=
  sliceTo socketPath (lastIndex socketPath '/')

/-! ## Bindings: definitions used to state what the parsers store -/

/-- Assign the bindings `bs` to the map `m`, in order. -/
def setAll (bs : List (Str × Str)) (m : GoMap Str) : GoMap Str :=
  bs.foldl (fun m b => mapSet m b.1 b.2) m

/-- The value of the last binding of `k` in `bs`, if `k` is bound at all. -/
def lastBinding : List (Str × Str) → Str → Option Str
  | [], _ => none
  | (k', v) :: rest, k =>
    match lastBinding rest k with
    | some v' => some v'
    | none => if k' = k then some v else none

/-- The key and value of an entry `KEY=VALUE`, cut at its first `=`; `none`
for an entry without `=`. -/
def keyValue (e : Str) : Option (Str × Str) :=
  match splitN2 e '=' with
  | [k, v] => some (k, v)
  | _ => none

/-- The bindings of an environment: key and value of every entry with `=`. -/
def envBindings (environ : List Str) : List (Str × Str) :=
  environ.filterMap keyValue

/-- The key `k` passes the filter of `env`. -/
def keptBy (lowerRune : Char → Char) (filter : Str) (k : Str) : Bool :=
  decide (filter = []) || contains (toLower lowerRune k) (toLower lowerRune filter)

/-- The binding an entry of the environment contributes under `filter`: its
key and value when it holds an `=` and the key passes the filter. -/
def envLine (lowerRune : Char → Char) (filter : Str) (e : Str) : Option (Str × Str) :=
  match keyValue e with
  | some kv => if keptBy lowerRune filter kv.1 = true then some kv else none
  | none => none

/-- The binding a line of an os-release text contributes: none for a blank
line, a line starting with `#` or a line without `=`; otherwise its key and
its value stripped of leading and trailing double quotes. -/
def osReleaseLine (l : Str) : Option (Str × Str) :=
  if trimSpace l = [] ∨ hasPrefix l "#".toList = true then none
  else (keyValue l).map (fun kv => (kv.1, trim kv.2 "\"".toList))

/-- Unquoting as the specification words it: a value that starts and ends
with a double quote loses that pair, any other value is unchanged. -/
def unquotePair (v : Str) : Str :=
  match v with
  | '"' :: rest =>
    (match rest.reverse with
     | '"' :: inner => inner.reverse
     | _ => v)
  | _ => v

/-- The five prefixes recognised in `/proc/meminfo`. -/
def memPrefixes : List Str :=
  ["MemTotal:".toList, "MemFree:".toList, "MemAvailable:".toList,
   "Buffers:".toList, "Cached:".toList]

/-- The five labels: the recognised prefixes without their `:`. -/
def memLabels : List Str :=
  ["MemTotal".toList, "MemFree".toList, "MemAvailable".toList,
   "Buffers".toList, "Cached".toList]

/-- The line starts with one of the five prefixes. -/
def memRecognized (line : Str) : Bool :=
  memPrefixes.any (fun p => hasPrefix line p)

/-- The binding a line of a meminfo text contributes: for a recognised line
with at least two fields, the first field without a trailing `:` and the
remaining fields joined by single spaces; none for every other line. -/
def memLine (l : Str) : Option (Str × Str) :=
  if memRecognized l = true ∧ 2 ≤ (fields l).length then
    some (trimSuffix ((fields l).getD 0 []) ":".toList, join ((fields l).drop 1) " ".toList)
  else none

/-- The model a line of `/proc/cpuinfo` offers: for a line beginning with
`model name` that holds a `:`, the trimmed text after its first `:`; empty
for every other line. -/
def modelOfLine (line : Str) : Str :=
  if hasPrefix line "model name".toList = true then
    match splitN2 line ':' with
    | [_, v] => trimSpace v
    | _ => []
  else []

/-- The nameserver lines of a resolv.conf text: the trimmed lines that begin
with `nameserver `. -/
def nameserverLines (text : Str) : List Str :=
  ((split text '\n').map trimSpace).filter (fun l => hasPrefix l "nameserver ".toList)

/-- The search lines of a resolv.conf text: the trimmed lines that begin
with `search `. -/
def searchLines (text : Str) : List Str :=
  ((split text '\n').map trimSpace).filter (fun l => hasPrefix l "search ".toList)

/-- The keys a `FileEntry` has for a child whose metadata is `info`. -/
def fileEntryKeys (info : Option FileInfo) : List Str :=
  ["name".toList, "isDir".toList, "type".toList] ++
    (if info.isSome then ["size".toList, "mode".toList, "modTime".toList] else [])

/-- A host with the given directory listing for every path. -/
def osWithListing (entries : List DirEntry) : OS :=
  { osNoListing with readDir := fun _ => .ok entries }

/-- A directory with one child whose metadata is known and one without. -/
def sampleListing : List DirEntry :=
  [{ name := "etc".toList, isDir := true, type := "d---------".toList,
     info := some { size := 4096, mode := "drwxr-xr-x".toList,
                    modTime := "2024-01-01T00:00:00Z".toList } },
   { name := "gone".toList, isDir := false, type := "----------".toList, info := none }]

/-- A host with the given environment and nothing else. -/
def osWithEnv (environ : List Str) : OS :=
  { osNoListing with environ := environ }

/-- An environment with distinct keys and one entry without `=`. -/
def envSample : List Str := ["HOME=/root".toList, "A=b=c".toList, "x".toList]

/-- The environment `envSample` enumerated in another order. -/
def envSampleShuffled : List Str := ["x".toList, "A=b=c".toList, "HOME=/root".toList]

/-- A meminfo text whose labels are each followed by white space or the end
of the line; the last `MemTotal:` line has no value. -/
def memSample : Str :=
  "MemTotal:  100 kB\nSwapTotal: 5 kB\nMemFree: 40 kB\nMemTotal: 200 kB\nMemTotal:".toList

/-- A cpuinfo text whose first `model name` line has no text after the `:`. -/
def cpuSampleA : Str :=
  "processor : 0\nmodel name :\nprocessor : 1\nmodel name : A".toList

/-- The text `cpuSampleA` with another last `model name` line. -/
def cpuSampleB : Str :=
  "processor : 0\nmodel name :\nprocessor : 1\nmodel name : B".toList

/-! ## Sanity checks of the embedding on concrete inputs -/

theorem fields_example :
    fields " root  1\t0.0 ".toList = ["root".toList, "1".toList, "0.0".toList] := by decide

theorem split_example : split "a\nb\n".toList '\n' = ["a".toList, "b".toList, []] := by decide

theorem splitN2_example :
    splitN2 "A=b=c".toList '=' = ["A".toList, "b=c".toList] ∧
    splitN2 "Abc".toList '=' = ["Abc".toList] := by decide

theorem sortStrings_example :
    sortStrings ["b".toList, "a".toList, "B".toList] = ["B".toList, "a".toList, "b".toList] := by
  decide

theorem envVariables_example :
    envVariables Char.toLower "pa".toList
      ["PATH=/bin".toList, "HOME=/r".toList, "Pa=1=2".toList, "x".toList]
    = [[("name".toList, "PATH".toList), ("value".toList, "/bin".toList)],
       [("name".toList, "Pa".toList), ("value".toList, "1=2".toList)]] := by decide

/-! ## Lemmas on the `strings` fragment -/

theorem hasPrefix_iff (s p : Str) : hasPrefix s p = true ↔ p <+: s := by
  induction p generalizing s with
  | nil => simp [hasPrefix]
  | cons a p ih =>
    cases s with
    | nil => simp [hasPrefix]
    | cons c cs =>
      simp only [hasPrefix, Bool.and_eq_true, beq_iff_eq, ih, List.cons_prefix_cons]
      constructor
      · rintro ⟨h1, h2⟩; exact ⟨h1.symm, h2⟩
      · rintro ⟨h1, h2⟩; exact ⟨h1.symm, h2⟩

theorem contains_iff (s sub : Str) : contains s sub = true ↔ sub <:+: s := by
  induction s with
  | nil =>
    simp only [contains, hasPrefix_iff]
    constructor
    · intro h; exact h.isInfix
    · intro h
      have := List.eq_nil_of_infix_nil h
      subst this; exact List.prefix_refl _
  | cons c cs ih =>
    simp only [contains, Bool.or_eq_true, hasPrefix_iff, ih, List.infix_cons_iff]

theorem strLt_irrefl (a : Str) : strLt a a = false := by
  induction a with
  | nil => rfl
  | cons c cs ih => simp [strLt, ih]

theorem strLt_trans {a b c : Str} (h1 : strLt a b = true) (h2 : strLt b c = true) :
    strLt a c = true := by
  induction a generalizing b c with
  | nil =>
    cases b with
    | nil => simp [strLt] at h1
    | cons y ys =>
      cases c with
      | nil => simp [strLt] at h2
      | cons z zs => simp [strLt]
  | cons x xs ih =>
    cases b with
    | nil => simp [strLt] at h1
    | cons y ys =>
      cases c with
      | nil => simp [strLt] at h2
      | cons z zs =>
        simp only [strLt] at h1 h2 ⊢
        rcases lt_trichotomy x y with hxy | hxy | hxy
        · rcases lt_trichotomy y z with hyz | hyz | hyz
          · simp [lt_trans hxy hyz]
          · subst hyz; simp [hxy]
          · simp [hyz, lt_asymm hyz] at h2
        · subst hxy
          simp only [lt_irrefl, if_false] at h1
          rcases lt_trichotomy x z with hxz | hxz | hxz
          · simp [hxz]
          · subst hxz
            simp only [lt_irrefl, if_false] at h2 ⊢
            exact ih h1 h2
          · simp [hxz, lt_asymm hxz] at h2
        · simp [hxy, lt_asymm hxy] at h1

theorem strLt_asymm {a b : Str} (h : strLt a b = true) : strLt b a = false := by
  cases hba : strLt b a with
  | false => rfl
  | true =>
    have := strLt_trans h hba
    rw [strLt_irrefl] at this
    exact absurd this (by decide)

theorem strLt_total (a b : Str) : strLt a b = true ∨ a = b ∨ strLt b a = true := by
  induction a generalizing b with
  | nil =>
    cases b with
    | nil => exact Or.inr (Or.inl rfl)
    | cons y ys => exact Or.inl rfl
  | cons x xs ih =>
    cases b with
    | nil => exact Or.inr (Or.inr rfl)
    | cons y ys =>
      simp only [strLt]
      rcases lt_trichotomy x y with hxy | hxy | hxy
      · simp [hxy]
      · subst hxy
        simp only [lt_irrefl, if_false, List.cons.injEq, true_and]
        exact ih ys
      · simp [hxy]

theorem strLe_total (a b : Str) : strLe a b = true ∨ strLe b a = true := by
  unfold strLe
  cases hba : strLt b a with
  | false => exact Or.inl rfl
  | true => right; rw [strLt_asymm hba]; rfl

theorem strLe_trans {a b c : Str} (h1 : strLe a b = true) (h2 : strLe b c = true) :
    strLe a c = true := by
  unfold strLe at *
  cases hca : strLt c a with
  | false => rfl
  | true =>
    exfalso
    rcases strLt_total a b with h | h | h
    · have := strLt_trans hca h
      simp [this] at h2
    · subst h; simp [hca] at h2
    · simp [h] at h1

theorem strLe_antisymm {a b : Str} (h1 : strLe a b = true) (h2 : strLe b a = true) : a = b := by
  unfold strLe at *
  rcases strLt_total a b with h | h | h
  · simp [h] at h2
  · exact h
  · simp [h] at h1

theorem sortStrings_sorted (l : List Str) :
    (sortStrings l).Sorted (fun a b => strLe a b = true) := by
  haveI : IsTotal Str (fun a b => strLe a b = true) := ⟨strLe_total⟩
  haveI : IsTrans Str (fun a b => strLe a b = true) := ⟨fun _ _ _ h1 h2 => strLe_trans h1 h2⟩
  exact List.sorted_insertionSort _ l

theorem sortStrings_perm (l : List Str) : (sortStrings l).Perm l :=
  List.perm_insertionSort _ l

/-- Whatever algorithm `sort.Strings` runs, its result (an ascending
rearrangement of the input) is the list `sortStrings` computes. -/
theorem sortStrings_unique (l l' : List Str) (hp : l'.Perm l)
    (hs : l'.Sorted (fun a b => strLe a b = true)) : l' = sortStrings l := by
  haveI : IsAntisymm Str (fun a b => strLe a b = true) :=
    ⟨fun _ _ h1 h2 => strLe_antisymm h1 h2⟩
  exact List.eq_of_perm_of_sorted (hp.trans (sortStrings_perm l).symm) hs (sortStrings_sorted l)

/-! ## Lemmas on loops and maps -/

theorem foldl_append_map {α β : Type} (g : α → β) (l : List α) (init : List β) :
    l.foldl (fun acc x => acc ++ [g x]) init = init ++ l.map g := by
  induction l generalizing init with
  | nil => simp
  | cons x xs ih => simp [ih]

theorem foldl_append_filter {α β : Type} (p : α → Prop) [DecidablePred p] (g : α → β)
    (l : List α) (init : List β) :
    l.foldl (fun acc x => if p x then acc ++ [g x] else acc) init
      = init ++ (l.filter (fun x => decide (p x))).map g := by
  induction l generalizing init with
  | nil => simp
  | cons x xs ih =>
    by_cases hx : p x
    · simp [ih, hx]
    · simp [ih, hx]

theorem mapKeys_mapSet {β : Type} (m : GoMap β) (k : Str) (v : β) :
    mapKeys (mapSet m k v) = if k ∈ mapKeys m then mapKeys m else mapKeys m ++ [k] := by
  induction m with
  | nil => rfl
  | cons kv rest ih =>
    obtain ⟨k', v'⟩ := kv
    unfold mapKeys at ih ⊢
    by_cases h : k' = k
    · subst h
      simp only [mapSet, ↓reduceIte, List.map_cons, List.mem_cons, true_or]
    · have h' : ¬ k = k' := fun e => h e.symm
      simp only [mapSet, h, ↓reduceIte, List.map_cons, ih, List.mem_cons, h', false_or]
      split_ifs
      · rfl
      · rfl

theorem mem_mapKeys_mapSet {β : Type} (m : GoMap β) (k k' : Str) (v : β) :
    k' ∈ mapKeys (mapSet m k v) ↔ k' = k ∨ k' ∈ mapKeys m := by
  rw [mapKeys_mapSet]
  split_ifs with h
  · constructor
    · exact Or.inr
    · rintro (rfl | h2)
      · exact h
      · exact h2
  · rw [List.mem_append, List.mem_singleton, or_comm]

theorem nodup_mapKeys_mapSet {β : Type} (m : GoMap β) (k : Str) (v : β)
    (h : (mapKeys m).Nodup) : (mapKeys (mapSet m k v)).Nodup := by
  rw [mapKeys_mapSet]
  split_ifs with hk
  · exact h
  · refine List.Nodup.append h (List.nodup_singleton k) ?_
    intro a ha hb
    rw [List.mem_singleton] at hb
    subst hb
    exact hk ha

theorem mapGet_mapSet {β : Type} (m : GoMap β) (k k' : Str) (v : β) :
    mapGet (mapSet m k v) k' = if k = k' then some v else mapGet m k' := by
  induction m with
  | nil => rfl
  | cons kv rest ih =>
    obtain ⟨k0, v0⟩ := kv
    by_cases h : k0 = k
    · subst h
      simp only [mapSet, ↓reduceIte, mapGet]
      split_ifs <;> rfl
    · simp only [mapSet, h, ↓reduceIte, mapGet, ih]
      by_cases h2 : k0 = k'
      · subst h2
        have h' : ¬ k = k0 := fun e => h e.symm
        simp only [↓reduceIte, h']
      · simp only [h2, ↓reduceIte]

theorem mapGet_isSome_iff {β : Type} (m : GoMap β) (k : Str) :
    (mapGet m k).isSome = true ↔ k ∈ mapKeys m := by
  induction m with
  | nil => simp only [mapGet, mapKeys, Option.isSome_none, List.map_nil, List.not_mem_nil]
           exact ⟨fun h => absurd h (by decide), False.elim⟩
  | cons kv rest ih =>
    obtain ⟨k0, v0⟩ := kv
    unfold mapKeys at ih ⊢
    by_cases h : k0 = k
    · subst h
      simp only [mapGet, ↓reduceIte, Option.isSome_some, List.map_cons, List.mem_cons, true_or]
    · have h' : ¬ k = k0 := fun e => h e.symm
      simp only [mapGet, h, ↓reduceIte, ih, List.map_cons, List.mem_cons, h', false_or]

theorem splitN2_cases (s : Str) (sep : Char) :
    splitN2 s sep = [s] ∨ ∃ k v, splitN2 s sep = [k, v] := by
  unfold splitN2
  cases s.dropWhile (fun c => c != sep) with
  | nil => exact Or.inl rfl
  | cons c after => exact Or.inr ⟨_, _, rfl⟩

/-! ## Lemmas on `env` -/

theorem envStep_of_pair (lowerRune : Char → Char) (filter : Str) (m : GoMap Str)
    (e k v : Str) (h : splitN2 e '=' = [k, v]) :
    envStep lowerRune filter m e =
      if filter ≠ [] ∧ contains (toLower lowerRune k) (toLower lowerRune filter) = false
      then m else mapSet m k v := by
  simp only [envStep, h]

theorem envStep_of_single (lowerRune : Char → Char) (filter : Str) (m : GoMap Str)
    (e : Str) (h : splitN2 e '=' = [e]) : envStep lowerRune filter m e = m := by
  simp only [envStep, h]

theorem kept_iff (lowerRune : Char → Char) (filter k : Str) :
    ¬ (filter ≠ [] ∧ contains (toLower lowerRune k) (toLower lowerRune filter) = false) ↔
      (filter = [] ∨ contains (toLower lowerRune k) (toLower lowerRune filter) = true) := by
  by_cases hf : filter = []
  · simp [hf]
  · cases contains (toLower lowerRune k) (toLower lowerRune filter) <;> simp [hf]

theorem envStep_keys (lowerRune : Char → Char) (filter : Str) (m : GoMap Str) (e k : Str) :
    k ∈ mapKeys (envStep lowerRune filter m e) ↔
      k ∈ mapKeys m ∨ ∃ v, splitN2 e '=' = [k, v] ∧
        (filter = [] ∨ contains (toLower lowerRune k) (toLower lowerRune filter) = true) := by
  rcases splitN2_cases e '=' with h | ⟨k0, v0, h⟩
  · rw [envStep_of_single _ _ _ _ h, h]
    constructor
    · exact Or.inl
    · rintro (h1 | ⟨v, hv, -⟩)
      · exact h1
      · simp at hv
  · rw [envStep_of_pair _ _ _ _ _ _ h, h]
    split_ifs with hf
    · constructor
      · exact Or.inl
      · rintro (h1 | ⟨v, hv, hc⟩)
        · exact h1
        · exfalso
          simp only [List.cons.injEq, and_true] at hv
          obtain ⟨rfl, -⟩ := hv
          exact (kept_iff lowerRune filter k0).mpr hc hf
    · rw [mem_mapKeys_mapSet]
      constructor
      · rintro (rfl | h1)
        · exact Or.inr ⟨v0, rfl, (kept_iff lowerRune filter k).mp hf⟩
        · exact Or.inl h1
      · rintro (h1 | ⟨v, hv, -⟩)
        · exact Or.inr h1
        · simp only [List.cons.injEq, and_true] at hv
          exact Or.inl hv.1.symm

theorem envFold_keys (lowerRune : Char → Char) (filter : Str) (environ : List Str)
    (m : GoMap Str) (k : Str) :
    k ∈ mapKeys (environ.foldl (envStep lowerRune filter) m) ↔
      k ∈ mapKeys m ∨ ∃ e ∈ environ, ∃ v, splitN2 e '=' = [k, v] ∧
        (filter = [] ∨ contains (toLower lowerRune k) (toLower lowerRune filter) = true) := by
  induction environ generalizing m with
  | nil => simp
  | cons e es ih =>
    rw [List.foldl_cons, ih, envStep_keys]
    simp only [List.mem_cons, exists_eq_or_imp, or_assoc]

theorem envStep_nodup (lowerRune : Char → Char) (filter : Str) (m : GoMap Str) (e : Str)
    (h : (mapKeys m).Nodup) : (mapKeys (envStep lowerRune filter m e)).Nodup := by
  rcases splitN2_cases e '=' with hs | ⟨k0, v0, hs⟩
  · rw [envStep_of_single _ _ _ _ hs]; exact h
  · rw [envStep_of_pair _ _ _ _ _ _ hs]
    split_ifs
    · exact h
    · exact nodup_mapKeys_mapSet m k0 v0 h

theorem envFold_nodup (lowerRune : Char → Char) (filter : Str) (environ : List Str)
    (m : GoMap Str) (h : (mapKeys m).Nodup) :
    (mapKeys (environ.foldl (envStep lowerRune filter) m)).Nodup := by
  induction environ generalizing m with
  | nil => simpa using h
  | cons e es ih => exact ih _ (envStep_nodup lowerRune filter m e h)

theorem envVars_keys (lowerRune : Char → Char) (filter : Str) (environ : List Str) (k : Str) :
    k ∈ mapKeys (envVars lowerRune filter environ) ↔
      ∃ e ∈ environ, ∃ v, splitN2 e '=' = [k, v] ∧
        (filter = [] ∨ contains (toLower lowerRune k) (toLower lowerRune filter) = true) := by
  unfold envVars
  rw [envFold_keys]
  simp [mapKeys]

theorem envVars_nodup (lowerRune : Char → Char) (filter : Str) (environ : List Str) :
    (mapKeys (envVars lowerRune filter environ)).Nodup :=
  envFold_nodup lowerRune filter environ [] (by simp [mapKeys])

theorem sortedEnvOf_eq (m : GoMap Str) (keys : List Str) :
    sortedEnvOf m keys = (sortStrings keys).map
      (fun k => [("name".toList, k), ("value".toList, (mapGet m k).getD [])]) := by
  unfold sortedEnvOf
  rw [foldl_append_map]
  rfl

theorem sortedEnvOf_names (m : GoMap Str) (keys : List Str) :
    (sortedEnvOf m keys).map entryName = sortStrings keys := by
  rw [sortedEnvOf_eq, List.map_map]
  have : (entryName ∘ fun k => [("name".toList, k), ("value".toList, (mapGet m k).getD [])])
      = id := by
    funext k
    simp [entryName, mapGet]
  rw [this, List.map_id]

/-! ## Handler `env`: filter, order and count -/

/-- C1: for every environment and every filter `f`, the `/env` response reports
under `variables` a list of `name`/`value` entries and under `count` its
length; every reported name contains `f` case-insensitively (the lowered
filter is a contiguous block of the lowered name); with `f` empty the key of
every entry holding an equals sign is reported; and the names are in ascending
order. -/
theorem env_filtered_sorted_counted (lowerRune : Char → Char) (os : OS) (f : Str) :
    mapGet (env lowerRune os f).body "variables".toList
      = some (JSON.ofStrMaps (envVariables lowerRune f os.environ)) ∧
    mapGet (env lowerRune os f).body "count".toList
      = some (.num (envVariables lowerRune f os.environ).length) ∧
    (∀ v ∈ envVariables lowerRune f os.environ, ∃ name value,
      v = [("name".toList, name), ("value".toList, value)] ∧
      toLower lowerRune f <:+: toLower lowerRune name) ∧
    (f = [] → ∀ e ∈ os.environ, ∀ k v, splitN2 e '=' = [k, v] →
      k ∈ (envVariables lowerRune f os.environ).map entryName) ∧
    ((envVariables lowerRune f os.environ).map entryName).Sorted
      (fun a b => strLe a b = true) := by
  refine ⟨rfl, rfl, ?_, ?_, ?_⟩
  · intro v hv
    unfold envVariables at hv
    rw [sortedEnvOf_eq, List.mem_map] at hv
    obtain ⟨k, hk, rfl⟩ := hv
    refine ⟨k, _, rfl, ?_⟩
    have hk' : k ∈ mapKeys (envVars lowerRune f os.environ) :=
      (sortStrings_perm _).mem_iff.mp hk
    obtain ⟨e, -, v, -, hc⟩ := (envVars_keys lowerRune f os.environ k).mp hk'
    rcases hc with hc | hc
    · subst hc
      exact List.nil_infix
    · exact (contains_iff _ _).mp hc
  · intro hf e he k v hs
    unfold envVariables
    rw [sortedEnvOf_names]
    apply (sortStrings_perm _).mem_iff.mpr
    exact (envVars_keys lowerRune f os.environ k).mpr ⟨e, he, v, hs, Or.inl hf⟩
  · unfold envVariables
    rw [sortedEnvOf_names]
    exact sortStrings_sorted _

/-! ## Handler `processes`: entries -/

theorem procLoop_cons (n : Nat) (fs : List Str) (j : Nat) (h : Str) (hs : List Str)
    (proc : GoMap Str) :
    procLoop n fs j (h :: hs) proc
      = procLoop n fs (j + 1) hs (mapSet proc h (procValue n fs j)) := by
  unfold procValue
  by_cases hj : j = n - 1
  · simp only [procLoop, hj, ↓reduceIte]
  · simp only [procLoop, hj, ↓reduceIte]

theorem procLoop_keys (n : Nat) (fs : List Str) (hs : List Str) (j : Nat) (proc : GoMap Str)
    (hnd : hs.Nodup) (hdis : ∀ h ∈ hs, h ∉ mapKeys proc) :
    mapKeys (procLoop n fs j hs proc) = mapKeys proc ++ hs := by
  induction hs generalizing j proc with
  | nil => simp [procLoop]
  | cons h hs ih =>
    rw [procLoop_cons]
    have hh : h ∉ mapKeys proc := hdis h (List.mem_cons_self _ _)
    have hk : mapKeys (mapSet proc h (procValue n fs j)) = mapKeys proc ++ [h] := by
      rw [mapKeys_mapSet, if_neg hh]
    rw [ih (j + 1) _ (List.nodup_cons.mp hnd).2, hk, List.append_assoc]
    · rfl
    · intro h' hh' hmem
      rw [hk, List.mem_append, List.mem_singleton] at hmem
      rcases hmem with hmem | hmem
      · exact hdis h' (List.mem_cons_of_mem _ hh') hmem
      · subst hmem
        exact (List.nodup_cons.mp hnd).1 hh'

theorem procLoop_get_other (n : Nat) (fs : List Str) (hs : List Str) (j : Nat)
    (proc : GoMap Str) (k : Str) (hk : k ∉ hs) :
    mapGet (procLoop n fs j hs proc) k = mapGet proc k := by
  induction hs generalizing j proc with
  | nil => simp [procLoop]
  | cons h hs ih =>
    rw [procLoop_cons, ih _ _ (fun hm => hk (List.mem_cons_of_mem _ hm)), mapGet_mapSet]
    have : ¬ h = k := fun e => hk (e ▸ List.mem_cons_self _ _)
    rw [if_neg this]

theorem procLoop_get (n : Nat) (fs : List Str) (hs : List Str) (j : Nat) (proc : GoMap Str)
    (hnd : hs.Nodup) (i : Nat) (hi : i < hs.length) :
    mapGet (procLoop n fs j hs proc) (hs.getD i []) = some (procValue n fs (j + i)) := by
  induction hs generalizing j proc i with
  | nil => simp at hi
  | cons h hs ih =>
    rw [procLoop_cons]
    cases i with
    | zero =>
      simp only [List.getD_cons_zero, Nat.add_zero]
      rw [procLoop_get_other _ _ _ _ _ _ (List.nodup_cons.mp hnd).1, mapGet_mapSet, if_pos rfl]
    | succ i =>
      simp only [List.getD_cons_succ]
      rw [ih (j + 1) _ (List.nodup_cons.mp hnd).2 i (by simpa using hi)]
      congr 2
      omega

theorem procEntry_keys (headers fs : List Str) (hnd : headers.Nodup) :
    mapKeys (procEntry headers fs) = headers := by
  unfold procEntry
  rw [procLoop_keys _ _ _ _ _ hnd (by simp [mapKeys])]
  rfl

theorem procEntry_get (headers fs : List Str) (hnd : headers.Nodup) (i : Nat)
    (hi : i < headers.length) :
    mapGet (procEntry headers fs) (headers.getD i [])
      = some (procValue headers.length fs i) := by
  unfold procEntry
  rw [procLoop_get _ _ _ _ _ hnd i hi, Nat.zero_add]

theorem processesLoop_data (headers : List Str) (ls : List Str) (i : Nat)
    (acc : List (GoMap Str)) :
    processesLoop (i + 1) ls headers acc = acc ++ dataEntries headers ls := by
  induction ls generalizing i acc with
  | nil => simp [processesLoop, dataEntries]
  | cons l ls ih =>
    unfold dataEntries at ih ⊢
    by_cases hb : trimSpace l = []
    · simp only [processesLoop, hb, ↓reduceIte, ih]
      simp [List.filter_cons, hb]
    · by_cases hlen : headers.length ≤ (fields l).length
      · simp only [processesLoop, hb, ↓reduceIte, Nat.add_one_ne_zero, hlen, ih]
        simp [List.filter_cons, hb, hlen]
      · simp only [processesLoop, hb, ↓reduceIte, Nat.add_one_ne_zero, hlen, ih]
        simp [List.filter_cons, hb, hlen]

theorem parseProcesses_of_header (psOutput hdr : Str) (rest : List Str)
    (hsplit : split psOutput '\n' = hdr :: rest) (hhdr : trimSpace hdr ≠ []) :
    parseProcesses psOutput = dataEntries (fields hdr) rest := by
  unfold parseProcesses
  rw [hsplit]
  simp only [processesLoop, hhdr, ↓reduceIte]
  rw [processesLoop_data, List.nil_append]

theorem dataEntries_append (headers : List Str) (xs ys : List Str) :
    dataEntries headers (xs ++ ys) = dataEntries headers xs ++ dataEntries headers ys := by
  simp [dataEntries]

theorem dataEntries_cons_of_ok (headers : List Str) (l : Str) (ls : List Str)
    (hb : trimSpace l ≠ []) (hlen : headers.length ≤ (fields l).length) :
    dataEntries headers (l :: ls) = procEntry headers (fields l) :: dataEntries headers ls := by
  simp [dataEntries, List.filter_cons, hb, hlen]

theorem psSample_parsed :
    parseProcesses psSample
      = [[("USER".toList, "root".toList), ("PID".toList, "1".toList),
          ("%CPU".toList, "0.0".toList), ("%MEM".toList, "0.1".toList),
          ("COMMAND".toList, "/sbin/init --switch".toList)]] := by decide

/-- C2: when the first line `hdr` of the output is a non-blank header row with
at least one, pairwise distinct, column names, a later non-blank line `line`
with at least as many fields yields exactly one entry, at its place in the
list; the keys of that entry are the column names, every column but the last
is bound to the field of the same index, and the last column is bound to all
remaining fields joined by single spaces. -/
theorem processes_entry_of_line (psOutput hdr line : Str) (pre post : List Str)
    (hsplit : split psOutput '\n' = hdr :: (pre ++ line :: post))
    (hhdr : trimSpace hdr ≠ [])
    (hn : 1 ≤ (fields hdr).length)
    (hnd : (fields hdr).Nodup)
    (hline : trimSpace line ≠ [])
    (hm : (fields hdr).length ≤ (fields line).length) :
    parseProcesses psOutput
      = dataEntries (fields hdr) pre
          ++ procEntry (fields hdr) (fields line) :: dataEntries (fields hdr) post ∧
    mapKeys (procEntry (fields hdr) (fields line)) = fields hdr ∧
    (∀ j, j < (fields hdr).length - 1 →
      mapGet (procEntry (fields hdr) (fields line)) ((fields hdr).getD j [])
        = some ((fields line).getD j [])) ∧
    mapGet (procEntry (fields hdr) (fields line))
        ((fields hdr).getD ((fields hdr).length - 1) [])
      = some (join ((fields line).drop ((fields hdr).length - 1)) " ".toList) := by
  refine ⟨?_, procEntry_keys _ _ hnd, ?_, ?_⟩
  · rw [parseProcesses_of_header psOutput hdr _ hsplit hhdr, dataEntries_append,
      dataEntries_cons_of_ok _ _ _ hline hm]
  · intro j hj
    rw [procEntry_get _ _ hnd j (by omega)]
    unfold procValue
    rw [if_neg (by omega)]
  · rw [procEntry_get _ _ hnd _ (by omega)]
    unfold procValue
    rw [if_pos rfl]

theorem processes_entry_of_line_witness :
    parseProcesses psSample
      = dataEntries (fields psSampleHeader) []
          ++ procEntry (fields psSampleHeader) (fields psSampleLine)
            :: dataEntries (fields psSampleHeader) [] ∧
    mapKeys (procEntry (fields psSampleHeader) (fields psSampleLine))
      = fields psSampleHeader ∧
    (∀ j, j < (fields psSampleHeader).length - 1 →
      mapGet (procEntry (fields psSampleHeader) (fields psSampleLine))
          ((fields psSampleHeader).getD j [])
        = some ((fields psSampleLine).getD j [])) ∧
    mapGet (procEntry (fields psSampleHeader) (fields psSampleLine))
        ((fields psSampleHeader).getD ((fields psSampleHeader).length - 1) [])
      = some (join ((fields psSampleLine).drop ((fields psSampleHeader).length - 1))
          " ".toList) :=
  processes_entry_of_line psSample psSampleHeader psSampleLine [] []
    (by decide) (by decide) (by decide) (by decide) (by decide) (by decide)

/-- C8: when the first line `hdr` of the output is non-blank, the process list
holds exactly one entry, in source order, for every later line that is
non-blank and has at least as many fields as `hdr` has column names; every
other later line is dropped. -/
theorem processes_one_entry_per_full_line (psOutput hdr : Str) (rest : List Str)
    (hsplit : split psOutput '\n' = hdr :: rest) (hhdr : trimSpace hdr ≠ []) :
    parseProcesses psOutput
      = (rest.filter (fun l =>
            decide (trimSpace l ≠ [] ∧ (fields hdr).length ≤ (fields l).length))).map
          (fun l => procEntry (fields hdr) (fields l)) ∧
    (parseProcesses psOutput).length
      = rest.countP (fun l =>
          decide (trimSpace l ≠ [] ∧ (fields hdr).length ≤ (fields l).length)) := by
  have h := parseProcesses_of_header psOutput hdr rest hsplit hhdr
  unfold dataEntries at h
  refine ⟨h, ?_⟩
  rw [h, List.length_map, List.countP_eq_length_filter]

theorem processes_one_entry_per_full_line_witness :
    parseProcesses psShortSample
      = (["1 ? init -v".toList, [], "2 ?".toList, "3 ? sh".toList].filter (fun l =>
            decide (trimSpace l ≠ [] ∧
              (fields "PID TTY CMD".toList).length ≤ (fields l).length))).map
          (fun l => procEntry (fields "PID TTY CMD".toList) (fields l)) ∧
    (parseProcesses psShortSample).length
      = ["1 ? init -v".toList, [], "2 ?".toList, "3 ? sh".toList].countP (fun l =>
          decide (trimSpace l ≠ [] ∧
            (fields "PID TTY CMD".toList).length ≤ (fields l).length)) :=
  processes_one_entry_per_full_line psShortSample "PID TTY CMD".toList
    ["1 ? init -v".toList, [], "2 ?".toList, "3 ? sh".toList] (by decide) (by decide)

theorem psShortSample_parsed :
    parseProcesses psShortSample
      = [[("PID".toList, "1".toList), ("TTY".toList, "?".toList),
          ("CMD".toList, "init -v".toList)],
         [("PID".toList, "3".toList), ("TTY".toList, "?".toList),
          ("CMD".toList, "sh".toList)]] := by decide

/-- C7, as stated, fails: in an output whose first line is blank the first
non-blank line `A B` is not taken as the header row; it and the line after it
are read against no column names and give two empty entries, where the reading
of the specification gives the single entry binding `A` to `x` and `B` to `y`. -/
theorem processes_blank_first_line :
    parseProcesses psBlankFirst = [[], []] ∧
    processesByFirstNonBlank psBlankFirst
      = [[("A".toList, "x".toList), ("B".toList, "y".toList)]] := by decide

/-- C7, amended: when the first line of the output is non-blank, it is the
header row (the first non-blank line): the column names are its fields and
every later non-blank line is read against these column names. -/
theorem processes_header_is_first_line (psOutput hdr : Str) (rest : List Str)
    (hsplit : split psOutput '\n' = hdr :: rest) (hhdr : trimSpace hdr ≠ []) :
    processesLoop 0 (hdr :: rest) [] [] = processesLoop 1 rest (fields hdr) [] ∧
    parseProcesses psOutput = processesByFirstNonBlank psOutput := by
  constructor
  · simp only [processesLoop, hhdr, ↓reduceIte]
  · rw [parseProcesses_of_header psOutput hdr rest hsplit hhdr]
    unfold processesByFirstNonBlank
    rw [hsplit]
    simp [List.dropWhile_cons, hhdr]

theorem processes_header_is_first_line_witness :
    processesLoop 0 (psSampleHeader :: [psSampleLine]) [] []
      = processesLoop 1 [psSampleLine] (fields psSampleHeader) [] ∧
    parseProcesses psSample = processesByFirstNonBlank psSample :=
  processes_header_is_first_line psSample psSampleHeader [psSampleLine]
    (by decide) (by decide)

/-- C9: the `/processes` response has status 200; when the listing command
succeeds its keys are exactly `processes` and `count`, with `count` the length
of the list under `processes`; when the command fails its only key is `error`,
bound to a string. -/
theorem processes_response_shape (os : OS) :
    (processes os).status = 200 ∧
    match os.output "ps".toList ["aux".toList] with
    | .ok psOutput =>
      (processes os).body
        = [("processes".toList, JSON.ofStrMaps (parseProcesses psOutput)),
           ("count".toList, .num (parseProcesses psOutput).length)]
    | .error err =>
      (processes os).body
        = [("error".toList, .str ("Failed to get processes: ".toList ++ err))] := by
  refine ⟨rfl, ?_⟩
  unfold processes
  cases os.output "ps".toList ["aux".toList] with
  | ok psOutput => rfl
  | error err => rfl

/-! ## Handler `filesystem` -/

/-- C3: the mount list holds, in source order, one entry for every line of the
mount table with at least four fields, built from the first four fields of
that line; lines with fewer fields contribute nothing. -/
theorem mounts_one_entry_per_full_line (text : Str) :
    parseMounts text
      = ((split text '\n').filter (fun l => decide (4 ≤ (fields l).length))).map
          (fun l => [("device".toList, (fields l).getD 0 []),
                     ("mountPoint".toList, (fields l).getD 1 []),
                     ("fsType".toList, (fields l).getD 2 []),
                     ("options".toList, (fields l).getD 3 [])]) := by
  unfold parseMounts
  exact (foldl_append_filter (fun l => 4 ≤ (fields l).length) _ _ []).trans
    (List.nil_append _)

theorem parseMounts_example :
    parseMounts "proc /proc proc rw 0 0\nbad line\n\n/dev/sda1 / ext4 rw,relatime".toList
      = [[("device".toList, "proc".toList), ("mountPoint".toList, "/proc".toList),
          ("fsType".toList, "proc".toList), ("options".toList, "rw".toList)],
         [("device".toList, "/dev/sda1".toList), ("mountPoint".toList, "/".toList),
          ("fsType".toList, "ext4".toList), ("options".toList, "rw,relatime".toList)]] := by
  decide

/-- C4, as stated, fails: for the path `/` there is no `mounts` key when the
directory cannot be listed, and none when the directory lists but the mount
table cannot be read. -/
theorem filesystem_root_without_mounts :
    effectivePath "/".toList = "/".toList ∧
    "mounts".toList ∉ mapKeys (filesystem osNoListing "/".toList).body ∧
    "mounts".toList ∉ mapKeys (filesystem osNoMounts "/".toList).body := by decide

theorem attachMounts_keys (os : OS) (path : Str) (result : GoMap JSON) :
    "mounts".toList ∈ mapKeys (attachMounts os path result) ↔
      "mounts".toList ∈ mapKeys result ∨
        (path = "/".toList ∧ ∃ mounts, os.readFile "/proc/mounts".toList = .ok mounts) := by
  unfold attachMounts
  by_cases hp : path = "/".toList
  · rw [if_pos hp]
    rcases hf : os.readFile "/proc/mounts".toList with err | mounts
    · simp only [hp, true_and, reduceCtorEq, exists_false, or_false]
    · simp only [mem_mapKeys_mapSet, hp, true_and, Except.ok.injEq, exists_eq', true_or,
        or_true]
  · rw [if_neg hp]
    simp only [hp, false_and, or_false]

theorem filesystem_of_error (os : OS) (pathParam e : Str)
    (herr : os.readDir (effectivePath pathParam) = .error e) :
    filesystem os pathParam
      = { status := statusOK
          body := [("path".toList, .str (effectivePath pathParam)),
                   ("error".toList, .str e)] } := by
  unfold filesystem
  simp only [herr]

theorem filesystem_of_ok (os : OS) (pathParam : Str) (entries : List DirEntry)
    (hok : os.readDir (effectivePath pathParam) = .ok entries) :
    filesystem os pathParam
      = { status := statusOK
          body := attachMounts os (effectivePath pathParam)
            [("path".toList, .str (effectivePath pathParam)),
             ("entries".toList, .arr ((entries.map fileInfo).map .obj)),
             ("count".toList, .num (entries.map fileInfo).length)] } := by
  unfold filesystem
  simp only [hok, foldl_append_map, List.nil_append]
  rfl

/-- C4, amended: the `/filesystem` response has a `mounts` key if and only if
the effective path is exactly `/`, the directory listing succeeded and the
mount table could be read. -/
theorem filesystem_mounts_iff (os : OS) (pathParam : Str) :
    "mounts".toList ∈ mapKeys (filesystem os pathParam).body ↔
      effectivePath pathParam = "/".toList ∧
      (∃ entries, os.readDir "/".toList = .ok entries) ∧
      (∃ mounts, os.readFile "/proc/mounts".toList = .ok mounts) := by
  rcases hd : os.readDir (effectivePath pathParam) with err | entries
  · rw [filesystem_of_error os pathParam err hd]
    have hno : "mounts".toList ∉ mapKeys
        [("path".toList, JSON.str (effectivePath pathParam)),
         ("error".toList, JSON.str err)] := by
      show "mounts".toList ∉ ["path".toList, "error".toList]
      decide
    constructor
    · intro h; exact absurd h hno
    · rintro ⟨hp, ⟨entries, he⟩, -⟩
      rw [hp, he] at hd
      exact absurd hd (by simp)
  · rw [filesystem_of_ok os pathParam entries hd, attachMounts_keys]
    have hno : "mounts".toList ∉ mapKeys
        [("path".toList, JSON.str (effectivePath pathParam)),
         ("entries".toList, JSON.arr ((entries.map fileInfo).map JSON.obj)),
         ("count".toList, JSON.num (entries.map fileInfo).length)] := by
      show "mounts".toList ∉ ["path".toList, "entries".toList, "count".toList]
      decide
    constructor
    · rintro (h | ⟨hp, hm⟩)
      · exact absurd h hno
      · exact ⟨hp, ⟨entries, hp ▸ hd⟩, hm⟩
    · rintro ⟨hp, -, hm⟩
      exact Or.inr ⟨hp, hm⟩

theorem effectivePath_empty : effectivePath [] = "/".toList := rfl

theorem effectivePath_of_ne_nil (pathParam : Str) (h : pathParam ≠ []) :
    effectivePath pathParam = pathParam := by
  unfold effectivePath
  rw [if_neg h]

/-- C5: when listing the requested path (the parameter, or `/` when the
parameter is empty) fails with error text `e`, the `/filesystem` response has
status 200 and its body is exactly the two keys `path`, bound to the
parameter or to `/` when the parameter is empty, and `error`, bound to the
text `e`; there is no `entries`, `count` or `mounts` key. -/
theorem filesystem_listing_error (os : OS) (pathParam e : Str)
    (herr : os.readDir (if pathParam = [] then "/".toList else pathParam) = .error e) :
    (filesystem os pathParam).status = 200 ∧
    (filesystem os pathParam).body
      = [("path".toList, .str (if pathParam = [] then "/".toList else pathParam)),
         ("error".toList, .str e)] ∧
    (pathParam = [] →
      (filesystem os pathParam).body
        = [("path".toList, .str "/".toList), ("error".toList, .str e)]) ∧
    (pathParam ≠ [] →
      (filesystem os pathParam).body
        = [("path".toList, .str pathParam), ("error".toList, .str e)]) ∧
    mapKeys (filesystem os pathParam).body = ["path".toList, "error".toList] ∧
    "entries".toList ∉ mapKeys (filesystem os pathParam).body ∧
    "count".toList ∉ mapKeys (filesystem os pathParam).body ∧
    "mounts".toList ∉ mapKeys (filesystem os pathParam).body := by
  have hb : (filesystem os pathParam)
      = { status := statusOK
          body := [("path".toList, .str (if pathParam = [] then "/".toList else pathParam)),
                   ("error".toList, .str e)] } :=
    filesystem_of_error os pathParam e herr
  rw [hb]
  refine ⟨rfl, rfl, ?_, ?_, rfl, ?_, ?_, ?_⟩
  · intro h
    simp only [h, ↓reduceIte]
  · intro h
    simp only [h, ↓reduceIte]
  · show "entries".toList ∉ ["path".toList, "error".toList]
    decide
  · show "count".toList ∉ ["path".toList, "error".toList]
    decide
  · show "mounts".toList ∉ ["path".toList, "error".toList]
    decide

theorem filesystem_listing_error_witness :
    (filesystem osNoListing []).status = 200 ∧
    (filesystem osNoListing []).body
      = [("path".toList, .str (if ([] : Str) = [] then "/".toList else [])),
         ("error".toList, .str "permission denied".toList)] ∧
    (([] : Str) = [] →
      (filesystem osNoListing []).body
        = [("path".toList, .str "/".toList),
           ("error".toList, .str "permission denied".toList)]) ∧
    (([] : Str) ≠ [] →
      (filesystem osNoListing []).body
        = [("path".toList, .str []), ("error".toList, .str "permission denied".toList)]) ∧
    mapKeys (filesystem osNoListing []).body = ["path".toList, "error".toList] ∧
    "entries".toList ∉ mapKeys (filesystem osNoListing []).body ∧
    "count".toList ∉ mapKeys (filesystem osNoListing []).body ∧
    "mounts".toList ∉ mapKeys (filesystem osNoListing []).body :=
  filesystem_listing_error osNoListing [] "permission denied".toList rfl

theorem filesystem_listing_error_default_path :
    (filesystem osNoListing []).body
      = [("path".toList, .str "/".toList),
         ("error".toList, .str "permission denied".toList)] ∧
    (filesystem osNoListing "/tmp".toList).body
      = [("path".toList, .str "/tmp".toList),
         ("error".toList, .str "permission denied".toList)] := ⟨rfl, rfl⟩

/-! ## Handler `system` -/

theorem attachUname_get_ne (os : OS) (flag key : Str) (r : GoMap JSON) (k : Str)
    (h : key ≠ k) : mapGet (attachUname os flag key r) k = mapGet r k := by
  unfold attachUname
  split
  · rw [mapGet_mapSet, if_neg h]
  · rfl

theorem attachUname_get_eq (os : OS) (flag key : Str) (r : GoMap JSON)
    (h : mapGet r key = none) :
    mapGet (attachUname os flag key r) key
      = (os.output "uname".toList [flag]).toOption.map
          (fun out => JSON.str (trimSpace out)) := by
  unfold attachUname
  split
  · next out heq => rw [heq, mapGet_mapSet, if_pos rfl]; rfl
  · next err heq => rw [heq, h]; rfl

theorem attachOsRelease_get_ne (os : OS) (r : GoMap JSON) (k : Str)
    (h : "osRelease".toList ≠ k) : mapGet (attachOsRelease os r) k = mapGet r k := by
  unfold attachOsRelease
  split
  · rw [mapGet_mapSet, if_neg h]
  · rfl

theorem attachOsRelease_get_eq (os : OS) (r : GoMap JSON)
    (h : mapGet r "osRelease".toList = none) :
    mapGet (attachOsRelease os r) "osRelease".toList
      = (os.readFile "/etc/os-release".toList).toOption.map
          (fun text => JSON.ofStrMap (parseOsRelease text)) := by
  unfold attachOsRelease
  split
  · next out heq => rw [heq, mapGet_mapSet, if_pos rfl]; rfl
  · next err heq => rw [heq, h]; rfl

theorem attachMemory_get_ne (os : OS) (r : GoMap JSON) (k : Str)
    (h : "memory".toList ≠ k) : mapGet (attachMemory os r) k = mapGet r k := by
  unfold attachMemory
  split
  · rw [mapGet_mapSet, if_neg h]
  · rfl

theorem attachMemory_get_eq (os : OS) (r : GoMap JSON)
    (h : mapGet r "memory".toList = none) :
    mapGet (attachMemory os r) "memory".toList
      = (os.readFile "/proc/meminfo".toList).toOption.map
          (fun text => JSON.ofStrMap (parseMemInfo text)) := by
  unfold attachMemory
  split
  · next out heq => rw [heq, mapGet_mapSet, if_pos rfl]; rfl
  · next err heq => rw [heq, h]; rfl

theorem attachCpu_get_ne (os : OS) (r : GoMap JSON) (k : Str)
    (h : "cpu".toList ≠ k) : mapGet (attachCpu os r) k = mapGet r k := by
  unfold attachCpu
  split
  · rw [mapGet_mapSet, if_neg h]
  · rfl

theorem attachCpu_get_eq (os : OS) (r : GoMap JSON)
    (h : mapGet r "cpu".toList = none) :
    mapGet (attachCpu os r) "cpu".toList
      = (os.readFile "/proc/cpuinfo".toList).toOption.map
          (fun text => JSON.obj [("count".toList, .num (parseCpuInfo text).1),
                                 ("model".toList, .str (parseCpuInfo text).2)]) := by
  unfold attachCpu
  split
  · next out heq => rw [heq, mapGet_mapSet, if_pos rfl]; rfl
  · next err heq => rw [heq, h]; rfl

/-- C6: the `/system` response has status 200 and, for each of the seven
sources, the value under its key is a function of the outcome of that source
alone: the key is present exactly when the source succeeded, bound to the
value computed from that source, whatever the other six sources did. -/
theorem system_per_source (os : OS) :
    (system os).status = 200 ∧
    mapGet (system os).body "uname".toList
      = (os.output "uname".toList ["-a".toList]).toOption.map
          (fun out => JSON.str (trimSpace out)) ∧
    mapGet (system os).body "kernelName".toList
      = (os.output "uname".toList ["-s".toList]).toOption.map
          (fun out => JSON.str (trimSpace out)) ∧
    mapGet (system os).body "kernelRelease".toList
      = (os.output "uname".toList ["-r".toList]).toOption.map
          (fun out => JSON.str (trimSpace out)) ∧
    mapGet (system os).body "machine".toList
      = (os.output "uname".toList ["-m".toList]).toOption.map
          (fun out => JSON.str (trimSpace out)) ∧
    mapGet (system os).body "osRelease".toList
      = (os.readFile "/etc/os-release".toList).toOption.map
          (fun text => JSON.ofStrMap (parseOsRelease text)) ∧
    mapGet (system os).body "memory".toList
      = (os.readFile "/proc/meminfo".toList).toOption.map
          (fun text => JSON.ofStrMap (parseMemInfo text)) ∧
    mapGet (system os).body "cpu".toList
      = (os.readFile "/proc/cpuinfo".toList).toOption.map
          (fun text => JSON.obj [("count".toList, .num (parseCpuInfo text).1),
                                 ("model".toList, .str (parseCpuInfo text).2)]) := by
  refine ⟨rfl, ?_, ?_, ?_, ?_, ?_, ?_, ?_⟩ <;> simp only [system]
  · rw [attachCpu_get_ne _ _ _ (by decide), attachMemory_get_ne _ _ _ (by decide),
      attachOsRelease_get_ne _ _ _ (by decide), attachUname_get_ne _ _ _ _ _ (by decide),
      attachUname_get_ne _ _ _ _ _ (by decide), attachUname_get_ne _ _ _ _ _ (by decide),
      attachUname_get_eq]
    rfl
  · rw [attachCpu_get_ne _ _ _ (by decide), attachMemory_get_ne _ _ _ (by decide),
      attachOsRelease_get_ne _ _ _ (by decide), attachUname_get_ne _ _ _ _ _ (by decide),
      attachUname_get_ne _ _ _ _ _ (by decide), attachUname_get_eq]
    rw [attachUname_get_ne _ _ _ _ _ (by decide)]
    rfl
  · rw [attachCpu_get_ne _ _ _ (by decide), attachMemory_get_ne _ _ _ (by decide),
      attachOsRelease_get_ne _ _ _ (by decide), attachUname_get_ne _ _ _ _ _ (by decide),
      attachUname_get_eq]
    rw [attachUname_get_ne _ _ _ _ _ (by decide), attachUname_get_ne _ _ _ _ _ (by decide)]
    rfl
  · rw [attachCpu_get_ne _ _ _ (by decide), attachMemory_get_ne _ _ _ (by decide),
      attachOsRelease_get_ne _ _ _ (by decide), attachUname_get_eq]
    rw [attachUname_get_ne _ _ _ _ _ (by decide), attachUname_get_ne _ _ _ _ _ (by decide),
      attachUname_get_ne _ _ _ _ _ (by decide)]
    rfl
  · rw [attachCpu_get_ne _ _ _ (by decide), attachMemory_get_ne _ _ _ (by decide),
      attachOsRelease_get_eq]
    rw [attachUname_get_ne _ _ _ _ _ (by decide), attachUname_get_ne _ _ _ _ _ (by decide),
      attachUname_get_ne _ _ _ _ _ (by decide), attachUname_get_ne _ _ _ _ _ (by decide)]
    rfl
  · rw [attachCpu_get_ne _ _ _ (by decide), attachMemory_get_eq]
    rw [attachOsRelease_get_ne _ _ _ (by decide),
      attachUname_get_ne _ _ _ _ _ (by decide), attachUname_get_ne _ _ _ _ _ (by decide),
      attachUname_get_ne _ _ _ _ _ (by decide), attachUname_get_ne _ _ _ _ _ (by decide)]
    rfl
  · rw [attachCpu_get_eq]
    rw [attachMemory_get_ne _ _ _ (by decide), attachOsRelease_get_ne _ _ _ (by decide),
      attachUname_get_ne _ _ _ _ _ (by decide), attachUname_get_ne _ _ _ _ _ (by decide),
      attachUname_get_ne _ _ _ _ _ (by decide), attachUname_get_ne _ _ _ _ _ (by decide)]
    rfl

/-! ## Handler `network`: the hosts file -/

/-- C10, as stated, fails: the indented line is kept without its surrounding
blanks, not verbatim, and the indented comment line, which does not begin with
`#`, is left out. -/
theorem hosts_not_verbatim :
    parseHosts " a \n # c".toList = ["a".toList] ∧
    hostsVerbatim " a \n # c".toList = [" a ".toList, " # c".toList] := by decide

/-- C10, amended: the hosts list is exactly the sequence, in source order, of
the lines of the file with their surrounding white space removed, keeping
those that are then non-empty and do not begin with `#`; a line that is blank
or whose first non-space character is `#` is excluded and every other line
appears exactly once, as its trimmed text. -/
theorem hosts_trimmed_lines (text : Str) :
    parseHosts text
      = ((split text '\n').map trimSpace).filter
          (fun l => decide (l ≠ [] ∧ hasPrefix l "#".toList = false)) := by
  unfold parseHosts
  rw [List.filter_map]
  exact (foldl_append_filter
    (fun l => trimSpace l ≠ [] ∧ hasPrefix (trimSpace l) "#".toList = false) trimSpace _ []).trans
    (List.nil_append _)

/-! ## `main`: the socket directory -/

theorem lastIndexGo_of_not_mem (sep : Char) (s : Str) (i : Nat) (last : Int)
    (h : sep ∉ s) : lastIndexGo sep s i last = last := by
  induction s generalizing i last with
  | nil => rfl
  | cons c cs ih =>
    have hc : ¬ c = sep := fun e => h (e ▸ List.mem_cons_self _ _)
    simp only [lastIndexGo, hc, ↓reduceIte]
    exact ih _ _ (fun hm => h (List.mem_cons_of_mem _ hm))

theorem lastIndexGo_bounds (sep : Char) (s : Str) (i : Nat) (last : Int)
    (h1 : -1 ≤ last) (h2 : last < i) :
    -1 ≤ lastIndexGo sep s i last ∧ lastIndexGo sep s i last < (i : Int) + s.length := by
  induction s generalizing i last with
  | nil => simp only [lastIndexGo, List.length_nil]; omega
  | cons c cs ih =>
    simp only [lastIndexGo, List.length_cons]
    by_cases hc : c = sep
    · simp only [hc, ↓reduceIte]
      have := ih (i + 1) (i : Int) (by omega) (by push_cast; omega)
      push_cast at this ⊢
      omega
    · simp only [hc, ↓reduceIte]
      have := ih (i + 1) last h1 (by push_cast; omega)
      push_cast at this ⊢
      omega

theorem lastIndexGo_of_mem (sep : Char) (s : Str) (i : Nat) (last : Int)
    (h1 : -1 ≤ last) (h2 : last < i) (h : sep ∈ s) :
    (i : Int) ≤ lastIndexGo sep s i last := by
  induction s generalizing i last with
  | nil => simp at h
  | cons c cs ih =>
    simp only [lastIndexGo]
    by_cases hc : c = sep
    · simp only [hc, ↓reduceIte]
      have := (lastIndexGo_bounds sep cs (i + 1) (i : Int) (by omega) (by push_cast; omega)).1
      by_cases hm : sep ∈ cs
      · have := ih (i + 1) (i : Int) (by omega) (by push_cast; omega) hm
        push_cast at this
        omega
      · rw [lastIndexGo_of_not_mem sep cs _ _ hm]
    · simp only [hc, ↓reduceIte]
      have hm : sep ∈ cs := by
        rcases List.mem_cons.mp h with e | hm
        · exact absurd e.symm hc
        · exact hm
      have := ih (i + 1) last h1 (by push_cast; omega) hm
      push_cast at this
      omega

/-- The slice of `main` succeeds exactly for the paths that contain a `/`. -/
theorem socketDir_isSome_iff (socketPath : Str) :
    (socketDir socketPath).isSome = true ↔ '/' ∈ socketPath := by
  unfold socketDir sliceTo lastIndex
  by_cases h : '/' ∈ socketPath
  · have hb := lastIndexGo_bounds '/' socketPath 0 (-1) (by omega) (by omega)
    have hm := lastIndexGo_of_mem '/' socketPath 0 (-1) (by omega) (by omega) h
    have hc : 0 ≤ lastIndexGo '/' socketPath 0 (-1) ∧
        lastIndexGo '/' socketPath 0 (-1) ≤ (socketPath.length : Int) := by
      push_cast at hb hm
      omega
    simp only [hc, and_self, ↓reduceIte, Option.isSome_some, h]
  · rw [lastIndexGo_of_not_mem '/' socketPath 0 (-1) h]
    simp only [h, iff_false]
    have : ¬ ((0 : Int) ≤ -1 ∧ (-1 : Int) ≤ (socketPath.length : Int)) := by omega
    simp only [this, ↓reduceIte, Option.isSome_none]
    decide

theorem socketDir_default :
    socketDir "/run/guest-services/backend.sock".toList
      = some "/run/guest-services".toList := by decide

/-- C20, as stated, fails on the code: for the socket path `backend.sock`,
which holds no `/`, `strings.LastIndex` returns `-1` and the slice
`socketPath[:-1]` is out of range, so computing the socket directory fails at
run time instead of staying within the bounds of the string. -/
theorem socketDir_bare_name_panics :
    lastIndex "backend.sock".toList '/' = -1 ∧
    socketDir "backend.sock".toList = none := by decide

/-! ## Handler `filesystem`: the directory entries -/

theorem attachMounts_get_ne (os : OS) (path : Str) (result : GoMap JSON) (k : Str)
    (h : "mounts".toList ≠ k) : mapGet (attachMounts os path result) k = mapGet result k := by
  unfold attachMounts
  split_ifs
  · split
    · rw [mapGet_mapSet, if_neg h]
    · rfl
  · rfl

theorem fileInfo_keys (entry : DirEntry) :
    mapKeys (fileInfo entry) = fileEntryKeys entry.info := by
  unfold fileInfo fileEntryKeys
  cases entry.info with
  | none => rfl
  | some info => rfl

/-- C16: when listing the effective path succeeds with the children
`entries`, the list under `entries` holds exactly one `FileEntry` per child,
in listing order, and `count` is the number of children; every entry has
`name`, `isDir` and `type`, and it has `size`, `mode` and `modTime` exactly
when the metadata of that child was retrievable. -/
theorem filesystem_one_entry_per_child (os : OS) (pathParam : Str) (entries : List DirEntry)
    (hok : os.readDir (effectivePath pathParam) = .ok entries) :
    (filesystem os pathParam).status = 200 ∧
    mapGet (filesystem os pathParam).body "entries".toList
      = some (.arr (entries.map (fun entry => JSON.obj (fileInfo entry)))) ∧
    mapGet (filesystem os pathParam).body "count".toList = some (.num entries.length) ∧
    (∀ entry : DirEntry,
      mapKeys (fileInfo entry)
        = ["name".toList, "isDir".toList, "type".toList] ++
            (if entry.info.isSome then ["size".toList, "mode".toList, "modTime".toList]
             else []) ∧
      mapGet (fileInfo entry) "name".toList = some (.str entry.name) ∧
      mapGet (fileInfo entry) "isDir".toList = some (.bool entry.isDir) ∧
      mapGet (fileInfo entry) "type".toList = some (.str entry.type) ∧
      mapGet (fileInfo entry) "size".toList = entry.info.map (fun i => .num i.size) ∧
      mapGet (fileInfo entry) "mode".toList = entry.info.map (fun i => .str i.mode) ∧
      mapGet (fileInfo entry) "modTime".toList
        = entry.info.map (fun i => .str i.modTime)) := by
  rw [filesystem_of_ok os pathParam entries hok]
  refine ⟨rfl, ?_, ?_, ?_⟩
  · show mapGet (attachMounts os _ _) _ = _
    rw [attachMounts_get_ne _ _ _ _ (by decide), List.map_map]
    rfl
  · show mapGet (attachMounts os _ _) _ = _
    rw [attachMounts_get_ne _ _ _ _ (by decide), List.length_map]
    rfl
  · intro entry
    refine ⟨fileInfo_keys entry, ?_⟩
    unfold fileInfo
    cases entry.info with
    | none => exact ⟨rfl, rfl, rfl, rfl, rfl, rfl⟩
    | some info => exact ⟨rfl, rfl, rfl, rfl, rfl, rfl⟩

theorem filesystem_one_entry_per_child_witness :
    (filesystem (osWithListing sampleListing) []).status = 200 ∧
    mapGet (filesystem (osWithListing sampleListing) []).body "entries".toList
      = some (.arr (sampleListing.map (fun entry => JSON.obj (fileInfo entry)))) ∧
    mapGet (filesystem (osWithListing sampleListing) []).body "count".toList
      = some (.num sampleListing.length) ∧
    (∀ entry : DirEntry,
      mapKeys (fileInfo entry)
        = ["name".toList, "isDir".toList, "type".toList] ++
            (if entry.info.isSome then ["size".toList, "mode".toList, "modTime".toList]
             else []) ∧
      mapGet (fileInfo entry) "name".toList = some (.str entry.name) ∧
      mapGet (fileInfo entry) "isDir".toList = some (.bool entry.isDir) ∧
      mapGet (fileInfo entry) "type".toList = some (.str entry.type) ∧
      mapGet (fileInfo entry) "size".toList = entry.info.map (fun i => .num i.size) ∧
      mapGet (fileInfo entry) "mode".toList = entry.info.map (fun i => .str i.mode) ∧
      mapGet (fileInfo entry) "modTime".toList
        = entry.info.map (fun i => .str i.modTime)) :=
  filesystem_one_entry_per_child (osWithListing sampleListing) [] sampleListing rfl

/-! ## Handler `network`: the resolver configuration -/

theorem trimPrefix_of_hasPrefix (s p : Str) (h : hasPrefix s p = true) :
    trimPrefix s p = s.drop p.length := by
  unfold trimPrefix
  rw [if_pos h]

theorem getLast?_cons_eq {α : Type} (a : α) (l : List α) :
    (a :: l).getLast? = some (l.getLast?.getD a) := by
  cases l with
  | nil => rfl
  | cons b l => rw [List.getLast?_cons_cons]; cases h : (b :: l).getLast? with
    | none => simp at h
    | some x => rfl

theorem resolvFold (ls : List Str) (ns sd : List Str) :
    ls.foldl (fun (st : List Str × List Str) line0 =>
        let line := trimSpace line0
        let nameservers :=
          if hasPrefix line "nameserver ".toList = true
          then st.1 ++ [trimPrefix line "nameserver ".toList] else st.1
        let searchDomains :=
          if hasPrefix line "search ".toList = true
          then fields (trimPrefix line "search ".toList) else st.2
        (nameservers, searchDomains)) (ns, sd)
      = (ns ++ ((ls.map trimSpace).filter (fun l => hasPrefix l "nameserver ".toList)).map
                (fun l => l.drop "nameserver ".toList.length),
         match ((ls.map trimSpace).filter (fun l => hasPrefix l "search ".toList)).getLast? with
         | none => sd
         | some l => fields (l.drop "search ".toList.length)) := by
  induction ls generalizing ns sd with
  | nil => simp
  | cons l ls ih =>
    rw [List.foldl_cons, ih]
    simp only [List.map_cons, List.filter_cons]
    by_cases h1 : hasPrefix (trimSpace l) "nameserver ".toList = true
    · by_cases h2 : hasPrefix (trimSpace l) "search ".toList = true
      · simp only [h1, h2, ↓reduceIte, List.map_cons, List.append_assoc, List.singleton_append,
          trimPrefix_of_hasPrefix _ _ h1, trimPrefix_of_hasPrefix _ _ h2, getLast?_cons_eq]
        cases ((ls.map trimSpace).filter (fun l => hasPrefix l "search ".toList)).getLast? <;> rfl
      · simp only [h1, h2, ↓reduceIte, List.map_cons, List.append_assoc, List.singleton_append,
          trimPrefix_of_hasPrefix _ _ h1, Bool.false_eq_true]
    · by_cases h2 : hasPrefix (trimSpace l) "search ".toList = true
      · simp only [h1, h2, ↓reduceIte, trimPrefix_of_hasPrefix _ _ h2, getLast?_cons_eq,
          Bool.false_eq_true]
        cases ((ls.map trimSpace).filter (fun l => hasPrefix l "search ".toList)).getLast? <;> rfl
      · simp only [h1, h2, ↓reduceIte, Bool.false_eq_true]

/-- C11: `nameservers` holds, in source order, one element for every line
that after trimming begins with `nameserver `, namely the text after that
prefix; `searchDomains` is the list of fields after `search ` on the last
line that after trimming begins with `search `, and is empty when there is no
such line. -/
theorem resolv_nameservers_and_search (text : Str) :
    (parseResolv text).1
      = (nameserverLines text).map (fun l => l.drop "nameserver ".toList.length) ∧
    (parseResolv text).2
      = (match (searchLines text).getLast? with
         | none => []
         | some l => fields (l.drop "search ".toList.length)) := by
  unfold parseResolv nameserverLines searchLines
  rw [resolvFold]
  exact ⟨List.nil_append _, rfl⟩

theorem parseResolv_example :
    parseResolv "# dns\nnameserver 10.0.0.1\nsearch a.example\n nameserver  10.0.0.2 \nsearch b.example  c.example\n".toList
      = (["10.0.0.1".toList, " 10.0.0.2".toList], ["b.example".toList, "c.example".toList]) := by
  decide

/-! ## Lemmas on bindings: the last assignment wins -/

theorem setAll_cons (b : Str × Str) (bs : List (Str × Str)) (m : GoMap Str) :
    setAll (b :: bs) m = setAll bs (mapSet m b.1 b.2) := rfl

theorem mapGet_setAll (bs : List (Str × Str)) (m : GoMap Str) (k : Str) :
    mapGet (setAll bs m) k
      = (match lastBinding bs k with
         | some v => some v
         | none => mapGet m k) := by
  induction bs generalizing m with
  | nil => rfl
  | cons b bs ih =>
    obtain ⟨k0, v0⟩ := b
    rw [setAll_cons, ih, mapGet_mapSet]
    simp only [lastBinding]
    cases lastBinding bs k with
    | some v => rfl
    | none =>
      by_cases h : k0 = k
      · simp only [h, ↓reduceIte]
      · simp only [h, ↓reduceIte]

theorem mapGet_setAll_nil (bs : List (Str × Str)) (k : Str) :
    mapGet (setAll bs []) k = lastBinding bs k := by
  rw [mapGet_setAll]
  cases lastBinding bs k <;> rfl

theorem lastBinding_filterMap_none {α : Type} (f : α → Option (Str × Str)) (l : List α)
    (k : Str) :
    lastBinding (l.filterMap f) k = none ↔ ∀ y ∈ l, ∀ v, f y ≠ some (k, v) := by
  induction l with
  | nil => simp [lastBinding]
  | cons a l ih =>
    cases hfa : f a with
    | none =>
      rw [List.filterMap_cons_none hfa, ih]
      constructor
      · intro h y hy v
        rcases List.mem_cons.mp hy with e | hm
        · subst e; rw [hfa]; exact fun c => by cases c
        · exact h y hm v
      · intro h y hy v
        exact h y (List.mem_cons_of_mem _ hy) v
    | some b =>
      obtain ⟨k0, v0⟩ := b
      rw [List.filterMap_cons_some hfa]
      simp only [lastBinding]
      cases hl : lastBinding (l.filterMap f) k with
      | some v' =>
        simp only [reduceCtorEq, false_iff]
        intro h
        have := ih.mpr (fun y hy v => h y (List.mem_cons_of_mem _ hy) v)
        rw [hl] at this
        cases this
      | none =>
        have hrest := ih.mp hl
        by_cases hk : k0 = k
        · simp only [hk, ↓reduceIte, reduceCtorEq, false_iff]
          intro h
          exact h a (List.mem_cons_self _ _) v0 (by rw [hfa, hk])
        · simp only [hk, ↓reduceIte, true_iff]
          intro y hy v
          rcases List.mem_cons.mp hy with e | hm
          · subst e
            rw [hfa]
            intro c
            simp only [Option.some.injEq, Prod.mk.injEq] at c
            exact hk c.1
          · exact hrest y hm v

theorem lastBinding_filterMap_some {α : Type} (f : α → Option (Str × Str)) (l : List α)
    (k v : Str) :
    lastBinding (l.filterMap f) k = some v ↔
      ∃ pre x post, l = pre ++ x :: post ∧ f x = some (k, v) ∧
        ∀ y ∈ post, ∀ v', f y ≠ some (k, v') := by
  induction l with
  | nil =>
    simp only [List.filterMap_nil, lastBinding, reduceCtorEq, false_iff]
    rintro ⟨pre, x, post, h, -⟩
    cases pre <;> simp at h
  | cons a l ih =>
    have key : lastBinding ((a :: l).filterMap f) k
        = (match lastBinding (l.filterMap f) k with
           | some v' => some v'
           | none => if f a = some (k, v) then some v
                     else (match f a with
                           | some b => if b.1 = k then some b.2 else none
                           | none => none)) := by
      cases hfa : f a with
      | none =>
        rw [List.filterMap_cons_none hfa]
        cases lastBinding (l.filterMap f) k <;> simp
      | some b =>
        obtain ⟨k0, v0⟩ := b
        rw [List.filterMap_cons_some hfa]
        simp only [lastBinding]
        cases lastBinding (l.filterMap f) k with
        | some v' => rfl
        | none =>
          by_cases hk : k0 = k
          · by_cases hv : v0 = v
            · simp [hk, hv]
            · simp [hk, hv]
          · simp [hk]
    rw [key]
    cases hl : lastBinding (l.filterMap f) k with
    | some v' =>
      simp only [Option.some.injEq]
      constructor
      · intro hv
        subst hv
        obtain ⟨pre, x, post, h1, h2, h3⟩ := ih.mp hl
        exact ⟨a :: pre, x, post, by rw [h1]; rfl, h2, h3⟩
      · rintro ⟨pre, x, post, h1, h2, h3⟩
        cases pre with
        | nil =>
          simp only [List.nil_append, List.cons.injEq] at h1
          obtain ⟨-, rfl⟩ := h1
          have := (lastBinding_filterMap_none f l k).mpr h3
          rw [hl] at this
          cases this
        | cons p pre =>
          simp only [List.cons_append, List.cons.injEq] at h1
          have := ih.mpr ⟨pre, x, post, h1.2, h2, h3⟩
          rw [hl] at this
          exact Option.some.inj this
    | none =>
      have hnone := (lastBinding_filterMap_none f l k).mp hl
      simp only
      constructor
      · intro h
        by_cases hfa : f a = some (k, v)
        · exact ⟨[], a, l, rfl, hfa, hnone⟩
        · exfalso
          rw [if_neg hfa] at h
          cases hfa' : f a with
          | none => rw [hfa'] at h; cases h
          | some b =>
            rw [hfa'] at h hfa
            simp only at h
            split_ifs at h with hb
            apply hfa
            obtain ⟨k0, v0⟩ := b
            simp only [Option.some.injEq] at h
            simp only at hb
            rw [hb, h]
      · rintro ⟨pre, x, post, h1, h2, h3⟩
        cases pre with
        | nil =>
          simp only [List.nil_append, List.cons.injEq] at h1
          obtain ⟨rfl, -⟩ := h1
          rw [if_pos h2]
        | cons p pre =>
          exfalso
          simp only [List.cons_append, List.cons.injEq] at h1
          have hx : x ∈ l := by rw [h1.2]; simp
          exact hnone x hx v h2

/-! ## Lemmas on `splitN2`: the cut at the first separator -/

theorem splitN2_of_append (k raw : Str) (sep : Char) (h : sep ∉ k) :
    splitN2 (k ++ sep :: raw) sep = [k, raw] := by
  have hd : (k ++ sep :: raw).dropWhile (fun c => c != sep) = sep :: raw ∧
      (k ++ sep :: raw).takeWhile (fun c => c != sep) = k := by
    induction k with
    | nil => simp [List.dropWhile, List.takeWhile]
    | cons c cs ih =>
      have hc : ¬ c = sep := fun e => h (e ▸ List.mem_cons_self _ _)
      have hne : (c != sep) = true := by simp [hc]
      have := ih (fun hm => h (List.mem_cons_of_mem _ hm))
      simp only [List.cons_append, List.dropWhile_cons, List.takeWhile_cons, hne, ↓reduceIte,
        this.1, this.2, and_self]
  unfold splitN2
  rw [hd.1, hd.2]

theorem splitN2_pair_inv (s k raw : Str) (sep : Char) (h : splitN2 s sep = [k, raw]) :
    s = k ++ sep :: raw ∧ sep ∉ k := by
  induction s generalizing k with
  | nil => simp [splitN2] at h
  | cons c cs ih =>
    by_cases hc : c = sep
    · subst hc
      have hne : (c != c) = false := by simp
      simp only [splitN2, List.dropWhile_cons, List.takeWhile_cons, hne, Bool.false_eq_true,
        ↓reduceIte, List.cons.injEq, and_true] at h
      obtain ⟨rfl, rfl⟩ := h
      simp
    · have hstep : splitN2 (c :: cs) sep
          = (match splitN2 cs sep with
             | [k', raw'] => [c :: k', raw']
             | _ => [c :: cs]) := by
        have hne : (c != sep) = true := by simp [hc]
        unfold splitN2
        simp only [List.dropWhile_cons, List.takeWhile_cons, hne, ↓reduceIte]
        cases cs.dropWhile (fun c => c != sep) <;> rfl
      rw [hstep] at h
      rcases splitN2_cases cs sep with h1 | ⟨k', raw', h1⟩
      · rw [h1] at h
        simp at h
      · rw [h1] at h
        simp only [List.cons.injEq, and_true] at h
        obtain ⟨rfl, rfl⟩ := h
        obtain ⟨h2, h3⟩ := ih k' h1
        refine ⟨by rw [h2]; rfl, ?_⟩
        intro hm
        rcases List.mem_cons.mp hm with e | hm'
        · exact hc e.symm
        · exact h3 hm'

theorem splitN2_eq_pair_iff (s k raw : Str) (sep : Char) :
    splitN2 s sep = [k, raw] ↔ s = k ++ sep :: raw ∧ sep ∉ k :=
  ⟨splitN2_pair_inv s k raw sep, fun ⟨h1, h2⟩ => h1 ▸ splitN2_of_append k raw sep h2⟩

theorem splitN2_single_iff (s : Str) (sep : Char) : splitN2 s sep = [s] ↔ sep ∉ s := by
  constructor
  · intro h hm
    obtain ⟨pre, post, rfl⟩ := List.append_of_mem hm
    -- cut at the first separator of the prefix
    have : ∃ k raw, pre ++ sep :: post = k ++ sep :: raw ∧ sep ∉ k := by
      clear h hm
      induction pre with
      | nil => exact ⟨[], post, rfl, by simp⟩
      | cons c cs ih =>
        by_cases hc : c = sep
        · exact ⟨[], cs ++ sep :: post, by rw [hc]; rfl, by simp⟩
        · obtain ⟨k, raw, h1, h2⟩ := ih
          refine ⟨c :: k, raw, by rw [List.cons_append, h1]; rfl, ?_⟩
          intro hm
          rcases List.mem_cons.mp hm with e | hm'
          · exact hc e.symm
          · exact h2 hm'
    obtain ⟨k, raw, h1, h2⟩ := this
    rw [h1, splitN2_of_append k raw sep h2] at h
    simp at h
  · intro h
    rcases splitN2_cases s sep with h1 | ⟨k, raw, h1⟩
    · exact h1
    · exfalso
      obtain ⟨h2, -⟩ := splitN2_pair_inv s k raw sep h1
      exact h (h2 ▸ by simp)

theorem keyValue_eq_some_iff (e k v : Str) :
    keyValue e = some (k, v) ↔ e = k ++ '=' :: v ∧ '=' ∉ k := by
  rw [← splitN2_eq_pair_iff]
  unfold keyValue
  rcases splitN2_cases e '=' with h | ⟨k0, v0, h⟩
  · rw [h]
    constructor
    · intro c; cases c
    · intro c; simp at c
  · rw [h]
    simp only [Option.some.injEq, Prod.mk.injEq, List.cons.injEq, and_true]

theorem keyValue_eq_none_iff (e : Str) : keyValue e = none ↔ '=' ∉ e := by
  rw [← splitN2_single_iff]
  unfold keyValue
  rcases splitN2_cases e '=' with h | ⟨k0, v0, h⟩
  · rw [h]; simp
  · rw [h]
    simp only [reduceCtorEq, List.cons.injEq, false_iff, not_and]
    intro _ c
    cases c

/-! ## Handler `env`: the map as a list of bindings -/

theorem contains_nil (s : Str) : contains s [] = true := by
  cases s <;> simp [contains, hasPrefix]

theorem keptBy_eq (lowerRune : Char → Char) (filter k : Str) :
    keptBy lowerRune filter k
      = contains (toLower lowerRune k) (toLower lowerRune filter) := by
  unfold keptBy
  by_cases hf : filter = []
  · subst hf
    simp [toLower, contains_nil]
  · simp [hf]

theorem envStep_eq_envLine (lowerRune : Char → Char) (filter : Str) (m : GoMap Str) (e : Str) :
    envStep lowerRune filter m e
      = (match envLine lowerRune filter e with
         | some b => mapSet m b.1 b.2
         | none => m) := by
  rcases splitN2_cases e '=' with h | ⟨k, v, h⟩
  · rw [envStep_of_single _ _ _ _ h]
    have : keyValue e = none := by unfold keyValue; rw [h]
    simp only [envLine, this]
  · rw [envStep_of_pair _ _ _ _ _ _ h]
    have hkv : keyValue e = some (k, v) := by unfold keyValue; rw [h]
    simp only [envLine, hkv]
    by_cases hkeep : keptBy lowerRune filter k = true
    · have hcond := (kept_iff lowerRune filter k).mpr (by
        unfold keptBy at hkeep
        simpa using hkeep)
      rw [if_neg hcond, if_pos hkeep]
    · have hcond : filter ≠ [] ∧
          contains (toLower lowerRune k) (toLower lowerRune filter) = false := by
        unfold keptBy at hkeep
        simpa using hkeep
      rw [if_pos hcond, if_neg hkeep]

theorem envFold_eq_setAll (lowerRune : Char → Char) (filter : Str) (environ : List Str)
    (m : GoMap Str) :
    environ.foldl (envStep lowerRune filter) m
      = setAll (environ.filterMap (envLine lowerRune filter)) m := by
  induction environ generalizing m with
  | nil => rfl
  | cons e es ih =>
    rw [List.foldl_cons, ih, envStep_eq_envLine]
    cases h : envLine lowerRune filter e with
    | none => rw [List.filterMap_cons_none h]
    | some b => rw [List.filterMap_cons_some h, setAll_cons]

theorem mapGet_envVars (lowerRune : Char → Char) (filter : Str) (environ : List Str) (k : Str) :
    mapGet (envVars lowerRune filter environ) k
      = lastBinding (environ.filterMap (envLine lowerRune filter)) k := by
  unfold envVars
  rw [envFold_eq_setAll, mapGet_setAll_nil]

theorem envLine_eq_some_iff (lowerRune : Char → Char) (filter e k v : Str) :
    envLine lowerRune filter e = some (k, v) ↔
      e = k ++ '=' :: v ∧ '=' ∉ k ∧
        contains (toLower lowerRune k) (toLower lowerRune filter) = true := by
  rw [← keptBy_eq, ← and_assoc, ← keyValue_eq_some_iff]
  unfold envLine
  cases hkv : keyValue e with
  | none => simp
  | some kv =>
    obtain ⟨k0, v0⟩ := kv
    by_cases hkeep : keptBy lowerRune filter k0 = true
    · simp only [hkeep, ↓reduceIte, Option.some.injEq, Prod.mk.injEq]
      constructor
      · rintro ⟨rfl, rfl⟩; exact ⟨⟨rfl, rfl⟩, hkeep⟩
      · rintro ⟨h, -⟩; exact h
    · simp only [hkeep, ↓reduceIte, Option.some.injEq, Prod.mk.injEq, reduceCtorEq, false_iff,
        not_and]
      rintro ⟨rfl, rfl⟩
      exact hkeep

theorem mem_envVariables (lowerRune : Char → Char) (filter : Str) (environ : List Str)
    (entry : GoMap Str) :
    entry ∈ envVariables lowerRune filter environ ↔
      ∃ k v, entry = [("name".toList, k), ("value".toList, v)] ∧
        lastBinding (environ.filterMap (envLine lowerRune filter)) k = some v := by
  unfold envVariables
  rw [sortedEnvOf_eq, List.mem_map]
  constructor
  · rintro ⟨k, hk, rfl⟩
    have hk' : k ∈ mapKeys (envVars lowerRune filter environ) :=
      (sortStrings_perm _).mem_iff.mp hk
    have hsome := (mapGet_isSome_iff _ k).mpr hk'
    rw [mapGet_envVars] at hsome ⊢
    obtain ⟨v, hl⟩ := Option.isSome_iff_exists.mp hsome
    exact ⟨k, v, by rw [hl]; rfl, hl⟩
  · rintro ⟨k, v, rfl, hl⟩
    refine ⟨k, ?_, ?_⟩
    · apply (sortStrings_perm _).mem_iff.mpr
      apply (mapGet_isSome_iff _ k).mp
      rw [mapGet_envVars, hl]
      rfl
    · rw [mapGet_envVars, hl]
      rfl

theorem lastBinding_envLine_iff (lowerRune : Char → Char) (filter : Str) (environ : List Str)
    (k v : Str) :
    lastBinding (environ.filterMap (envLine lowerRune filter)) k = some v ↔
      contains (toLower lowerRune k) (toLower lowerRune filter) = true ∧ '=' ∉ k ∧
      ∃ pre post, environ = pre ++ (k ++ '=' :: v) :: post ∧
        ∀ e ∈ post, ∀ v', e ≠ k ++ '=' :: v' := by
  rw [lastBinding_filterMap_some]
  constructor
  · rintro ⟨pre, x, post, h1, h2, h3⟩
    obtain ⟨rfl, hk, hc⟩ := (envLine_eq_some_iff _ _ _ _ _).mp h2
    refine ⟨hc, hk, pre, post, h1, ?_⟩
    intro e he v' heq
    exact h3 e he v' ((envLine_eq_some_iff _ _ _ _ _).mpr ⟨heq, hk, hc⟩)
  · rintro ⟨hc, hk, pre, post, h1, h3⟩
    refine ⟨pre, _, post, h1, (envLine_eq_some_iff _ _ _ _ _).mpr ⟨rfl, hk, hc⟩, ?_⟩
    intro e he v' heq
    exact h3 e he v' ((envLine_eq_some_iff _ _ _ _ _).mp heq).1

/-! ## Handler `env`: splitting, exact content and determinism -/

theorem filterMap_envLine_filter (lowerRune : Char → Char) (filter : Str)
    (environ : List Str) :
    (environ.filter (fun e => decide ('=' ∈ e))).filterMap (envLine lowerRune filter)
      = environ.filterMap (envLine lowerRune filter) := by
  induction environ with
  | nil => rfl
  | cons e es ih =>
    by_cases h : '=' ∈ e
    · rw [List.filter_cons_of_pos (by simpa using h)]
      cases hl : envLine lowerRune filter e with
      | none => rw [List.filterMap_cons_none hl, List.filterMap_cons_none hl, ih]
      | some b => rw [List.filterMap_cons_some hl, List.filterMap_cons_some hl, ih]
    · rw [List.filter_cons_of_neg (by simpa using h)]
      have hl : envLine lowerRune filter e = none := by
        unfold envLine
        rw [(keyValue_eq_none_iff e).mpr h]
      rw [List.filterMap_cons_none hl, ih]

theorem strLt_of_sorted_nodup (l : List Str)
    (hs : l.Sorted (fun a b => strLe a b = true)) (hn : l.Nodup) :
    l.Pairwise (fun a b => strLt a b = true) := by
  have h := List.Pairwise.and hs hn
  refine h.imp ?_
  intro a b hab
  obtain ⟨hle, hne⟩ := hab
  rcases strLt_total a b with h1 | h1 | h1
  · exact h1
  · exact absurd h1 hne
  · unfold strLe at hle
    rw [h1] at hle
    cases hle

theorem lastBinding_of_nodup (bs : List (Str × Str)) (hnd : (bs.map Prod.fst).Nodup)
    (k v : Str) : lastBinding bs k = some v ↔ (k, v) ∈ bs := by
  have h := lastBinding_filterMap_some (fun b : Str × Str => some b) bs k v
  rw [List.filterMap_some] at h
  rw [h]
  constructor
  · rintro ⟨pre, x, post, h1, h2, -⟩
    simp only [Option.some.injEq] at h2
    rw [h1, h2]
    simp
  · intro hm
    obtain ⟨pre, post, rfl⟩ := List.append_of_mem hm
    refine ⟨pre, (k, v), post, rfl, rfl, ?_⟩
    intro y hy v' hyv
    simp only [Option.some.injEq] at hyv
    rw [List.map_append, List.map_cons, List.nodup_append] at hnd
    have hk := (List.nodup_cons.mp hnd.2.1).1
    apply hk
    rw [List.mem_map]
    exact ⟨y, hy, by rw [hyv]⟩

theorem lastBinding_perm (bs1 bs2 : List (Str × Str)) (hp : bs1.Perm bs2)
    (hnd : (bs1.map Prod.fst).Nodup) (k : Str) : lastBinding bs1 k = lastBinding bs2 k := by
  have hnd2 : (bs2.map Prod.fst).Nodup := (hp.map Prod.fst).nodup_iff.mp hnd
  apply Option.ext
  intro v
  rw [Option.mem_def, Option.mem_def, lastBinding_of_nodup bs1 hnd,
    lastBinding_of_nodup bs2 hnd2, hp.mem_iff]

theorem filterMap_envLine_sublist (lowerRune : Char → Char) (filter : Str)
    (environ : List Str) :
    ((environ.filterMap (envLine lowerRune filter)).map Prod.fst).Sublist
      ((envBindings environ).map Prod.fst) := by
  unfold envBindings
  induction environ with
  | nil => exact List.Sublist.refl _
  | cons e es ih =>
    cases hkv : keyValue e with
    | none =>
      have hl : envLine lowerRune filter e = none := by unfold envLine; rw [hkv]
      rw [List.filterMap_cons_none hl, List.filterMap_cons_none hkv]
      exact ih
    | some kv =>
      rw [List.filterMap_cons_some hkv]
      by_cases hkeep : keptBy lowerRune filter kv.1 = true
      · have hl : envLine lowerRune filter e = some kv := by
          unfold envLine; rw [hkv]; exact if_pos hkeep
        rw [List.filterMap_cons_some hl]
        exact ih.cons₂ _
      · have hl : envLine lowerRune filter e = none := by
          unfold envLine; rw [hkv]; exact if_neg hkeep
        rw [List.filterMap_cons_none hl]
        exact ih.cons _

theorem mapGet_envVars_perm (lowerRune : Char → Char) (filter : Str) (env1 env2 : List Str)
    (hperm : env1.Perm env2) (hdistinct : ((envBindings env1).map Prod.fst).Nodup) (k : Str) :
    mapGet (envVars lowerRune filter env1) k = mapGet (envVars lowerRune filter env2) k := by
  rw [mapGet_envVars, mapGet_envVars]
  exact lastBinding_perm _ _ (hperm.filterMap _)
    (hdistinct.sublist (filterMap_envLine_sublist lowerRune filter env1)) k

/-- C17: for every filter and every two hosts whose environments are
permutations of each other with pairwise distinct keys, and for every order in
which the keys of the intermediate map are enumerated on either host, the
sorted list of variables is the same (same order, same values), and the two
`/env` responses are identical, `count` included. -/
theorem env_order_independent (lowerRune : Char → Char) (f : Str) (os1 os2 : OS)
    (keys1 keys2 : List Str)
    (hperm : os1.environ.Perm os2.environ)
    (hdistinct : ((envBindings os1.environ).map Prod.fst).Nodup)
    (hk1 : keys1.Perm (mapKeys (envVars lowerRune f os1.environ)))
    (hk2 : keys2.Perm (mapKeys (envVars lowerRune f os2.environ))) :
    sortedEnvOf (envVars lowerRune f os1.environ) keys1
      = sortedEnvOf (envVars lowerRune f os2.environ) keys2 ∧
    envVariables lowerRune f os1.environ = envVariables lowerRune f os2.environ ∧
    env lowerRune os1 f = env lowerRune os2 f := by
  have hget := mapGet_envVars_perm lowerRune f os1.environ os2.environ hperm hdistinct
  have hkeys : (mapKeys (envVars lowerRune f os1.environ)).Perm
      (mapKeys (envVars lowerRune f os2.environ)) := by
    rw [List.perm_ext_iff_of_nodup (envVars_nodup _ _ _) (envVars_nodup _ _ _)]
    intro k
    rw [← mapGet_isSome_iff, ← mapGet_isSome_iff, hget k]
  have hgen : ∀ ks1 ks2 : List Str,
      ks1.Perm (mapKeys (envVars lowerRune f os1.environ)) →
      ks2.Perm (mapKeys (envVars lowerRune f os2.environ)) →
      sortedEnvOf (envVars lowerRune f os1.environ) ks1
        = sortedEnvOf (envVars lowerRune f os2.environ) ks2 := by
    intro ks1 ks2 h1 h2
    have hsort : sortStrings ks1 = sortStrings ks2 :=
      sortStrings_unique ks2 (sortStrings ks1)
        ((sortStrings_perm ks1).trans (h1.trans (hkeys.trans h2.symm)))
        (sortStrings_sorted ks1)
    rw [sortedEnvOf_eq, sortedEnvOf_eq, hsort]
    apply List.map_congr_left
    intro k _
    rw [hget k]
  have hvars : envVariables lowerRune f os1.environ = envVariables lowerRune f os2.environ :=
    hgen _ _ (List.Perm.refl _) (List.Perm.refl _)
  refine ⟨hgen keys1 keys2 hk1 hk2, hvars, ?_⟩
  unfold env
  rw [hvars]

theorem env_order_independent_witness :
    sortedEnvOf (envVars Char.toLower [] (osWithEnv envSample).environ)
        ["A".toList, "HOME".toList]
      = sortedEnvOf (envVars Char.toLower [] (osWithEnv envSampleShuffled).environ)
        ["A".toList, "HOME".toList] ∧
    envVariables Char.toLower [] (osWithEnv envSample).environ
      = envVariables Char.toLower [] (osWithEnv envSampleShuffled).environ ∧
    env Char.toLower (osWithEnv envSample) []
      = env Char.toLower (osWithEnv envSampleShuffled) [] :=
  env_order_independent Char.toLower [] (osWithEnv envSample) (osWithEnv envSampleShuffled)
    ["A".toList, "HOME".toList] ["A".toList, "HOME".toList]
    (by decide) (by decide) (by decide) (by decide)

/-! ## Handler `system`: the os-release and meminfo parsers -/

theorem foldl_eq_setAll {α : Type} (step : GoMap Str → α → GoMap Str)
    (g : α → Option (Str × Str))
    (hstep : ∀ m a, step m a = (match g a with
                                | some b => mapSet m b.1 b.2
                                | none => m))
    (l : List α) (m : GoMap Str) :
    l.foldl step m = setAll (l.filterMap g) m := by
  induction l generalizing m with
  | nil => rfl
  | cons a l ih =>
    rw [List.foldl_cons, ih, hstep]
    cases h : g a with
    | none => rw [List.filterMap_cons_none h]
    | some b => rw [List.filterMap_cons_some h, setAll_cons]

theorem parseOsRelease_eq_setAll (text : Str) :
    parseOsRelease text = setAll ((split text '\n').filterMap osReleaseLine) [] := by
  unfold parseOsRelease
  refine foldl_eq_setAll _ osReleaseLine ?_ _ _
  intro m l
  unfold osReleaseLine
  by_cases hb : trimSpace l = [] ∨ hasPrefix l "#".toList = true
  · simp only [hb, ↓reduceIte]
  · simp only [hb, ↓reduceIte]
    rcases splitN2_cases l '=' with h | ⟨k, v, h⟩
    · have : keyValue l = none := by unfold keyValue; rw [h]
      simp only [h, this, Option.map_none']
    · have : keyValue l = some (k, v) := by unfold keyValue; rw [h]
      simp only [h, this, Option.map_some']

theorem osReleaseLine_eq_some_iff (l k v : Str) :
    osReleaseLine l = some (k, v) ↔
      trimSpace l ≠ [] ∧ hasPrefix l "#".toList = false ∧
        ∃ raw, l = k ++ '=' :: raw ∧ '=' ∉ k ∧ v = trim raw "\"".toList := by
  unfold osReleaseLine
  by_cases hb : trimSpace l = [] ∨ hasPrefix l "#".toList = true
  · rw [if_pos hb]
    simp only [reduceCtorEq, false_iff]
    rintro ⟨h1, h2, -⟩
    rcases hb with hb | hb
    · exact h1 hb
    · rw [hb] at h2; cases h2
  · rw [if_neg hb]
    have h1 : trimSpace l ≠ [] := fun e => hb (Or.inl e)
    have h2 : hasPrefix l "#".toList = false := by
      cases hp : hasPrefix l "#".toList with
      | false => rfl
      | true => exact absurd (Or.inr hp) hb
    cases hkv : keyValue l with
    | none =>
      simp only [Option.map_none', reduceCtorEq, false_iff]
      rintro ⟨-, -, raw, h3, h4, -⟩
      have := (keyValue_eq_some_iff l k raw).mpr ⟨h3, h4⟩
      rw [hkv] at this
      cases this
    | some kv =>
      obtain ⟨k0, v0⟩ := kv
      obtain ⟨h3, h4⟩ := (keyValue_eq_some_iff l k0 v0).mp hkv
      simp only [Option.map_some', Option.some.injEq, Prod.mk.injEq]
      constructor
      · rintro ⟨rfl, rfl⟩
        exact ⟨h1, h2, v0, h3, h4, rfl⟩
      · rintro ⟨-, -, raw, h5, h6, h7⟩
        have := (keyValue_eq_some_iff l k raw).mpr ⟨h5, h6⟩
        rw [hkv] at this
        simp only [Option.some.injEq, Prod.mk.injEq] at this
        exact ⟨this.1, by rw [h7, this.2]⟩

theorem trim_of_clean (w cutset : Str)
    (h1 : ∀ c, w.head? = some c → cutset.contains c = false)
    (h2 : ∀ c, w.getLast? = some c → cutset.contains c = false) :
    trim w cutset = w := by
  unfold trim
  have hd : w.dropWhile (fun c => cutset.contains c) = w := by
    cases w with
    | nil => rfl
    | cons a w => rw [List.dropWhile_cons, h1 a rfl]; rfl
  rw [hd]
  have hr : w.reverse.dropWhile (fun c => cutset.contains c) = w.reverse := by
    cases hw : w.reverse with
    | nil => rfl
    | cons a r =>
      have : w.getLast? = some a := by
        rw [← List.head?_reverse, hw]; rfl
      rw [List.dropWhile_cons, h2 a this]; rfl
  rw [hr, List.reverse_reverse]

theorem trim_wrapped (w : Str) (q : Char)
    (h1 : w.head? ≠ some q) (h2 : w.getLast? ≠ some q) :
    trim (q :: (w ++ [q])) [q] = w ∧ trim w [q] = w := by
  have hclean : trim w [q] = w := by
    apply trim_of_clean
    · intro c hc
      have : ¬ c = q := fun e => h1 (e ▸ hc)
      simp [this]
    · intro c hc
      have : ¬ c = q := fun e => h2 (e ▸ hc)
      simp [this]
  refine ⟨?_, hclean⟩
  have hq : ([q] : List Char).contains q = true := by simp
  have e1 : (q :: (w ++ [q])).dropWhile (fun c => [q].contains c)
      = (w ++ [q]).dropWhile (fun c => [q].contains c) := by
    rw [List.dropWhile_cons, hq]; rfl
  unfold trim at hclean ⊢
  rw [e1]
  cases w with
  | nil =>
    simp only [List.nil_append, List.dropWhile_cons, hq, ↓reduceIte, List.dropWhile_nil,
      List.reverse_nil]
  | cons a w =>
    have ha : ([q] : List Char).contains a = false := by
      have : ¬ a = q := fun e => h1 (by rw [e]; rfl)
      simp [this]
    have hdw : (a :: w).dropWhile (fun c => [q].contains c) = a :: w := by
      rw [List.dropWhile_cons, ha]; rfl
    rw [hdw] at hclean
    rw [List.cons_append, List.dropWhile_cons, ha]
    simp only [Bool.false_eq_true, ↓reduceIte]
    rw [← List.cons_append, List.reverse_append, List.reverse_singleton, List.singleton_append,
      List.dropWhile_cons, hq]
    simp only [↓reduceIte]
    exact hclean

/-- C12, as stated, fails: a value that starts with a double quote but does
not end with one is not left unchanged (its leading quote is removed), and a
value wrapped in two pairs of quotes loses both pairs, not one. -/
theorem osRelease_quotes_stripped :
    mapGet (parseOsRelease "A=\"b".toList) "A".toList = some "b".toList ∧
    unquotePair "\"b".toList = "\"b".toList ∧
    mapGet (parseOsRelease "A=\"\"b\"\"".toList) "A".toList = some "b".toList ∧
    unquotePair "\"\"b\"\"".toList = "\"b\"".toList := by decide

/-- C12, amended: the os-release mapping binds `k` to `v` exactly when some
line that is not blank and does not begin with `#` has the form `k=raw` (cut
at its first `=`), `v` is `raw` with all its leading and trailing double
quotes removed, and no later such line has the key `k` (the last line wins);
blank lines, lines beginning with `#` and lines without `=` contribute
nothing. Removing all leading and trailing quotes removes the surrounding
pair of a value wrapped in one pair, and leaves unchanged a value that neither
starts nor ends with a double quote. -/
theorem osRelease_binding_iff (text k v : Str) :
    (mapGet (parseOsRelease text) k = some v ↔
      ∃ pre l post raw, split text '\n' = pre ++ l :: post ∧
        trimSpace l ≠ [] ∧ hasPrefix l "#".toList = false ∧
        l = k ++ '=' :: raw ∧ '=' ∉ k ∧ v = trim raw "\"".toList ∧
        ∀ l' ∈ post, trimSpace l' ≠ [] → hasPrefix l' "#".toList = false →
          ∀ raw', l' ≠ k ++ '=' :: raw') ∧
    (∀ w : Str, w.head? ≠ some '"' → w.getLast? ≠ some '"' →
      trim ('"' :: (w ++ ['"'])) "\"".toList = w ∧ trim w "\"".toList = w) := by
  refine ⟨?_, fun w h1 h2 => trim_wrapped w '"' h1 h2⟩
  rw [parseOsRelease_eq_setAll, mapGet_setAll_nil, lastBinding_filterMap_some]
  constructor
  · rintro ⟨pre, l, post, h1, h2, h3⟩
    obtain ⟨ha, hb, raw, hc, hd, he⟩ := (osReleaseLine_eq_some_iff l k v).mp h2
    refine ⟨pre, l, post, raw, h1, ha, hb, hc, hd, he, ?_⟩
    intro l' hl' hx hy raw' hz
    exact h3 l' hl' _ ((osReleaseLine_eq_some_iff l' k _).mpr ⟨hx, hy, raw', hz, hd, rfl⟩)
  · rintro ⟨pre, l, post, raw, h1, ha, hb, hc, hd, he, h3⟩
    refine ⟨pre, l, post, h1, (osReleaseLine_eq_some_iff l k v).mpr ⟨ha, hb, raw, hc, hd, he⟩, ?_⟩
    intro l' hl' v' hz
    obtain ⟨hx, hy, raw', hw, -, -⟩ := (osReleaseLine_eq_some_iff l' k v').mp hz
    exact h3 l' hl' hx hy raw' hw

theorem parseOsRelease_example :
    parseOsRelease "# os\nNAME=\"Alpine Linux\"\nID=alpine\n\nbad line\nID=other".toList
      = [("NAME".toList, "Alpine Linux".toList), ("ID".toList, "other".toList)] := by decide

theorem memRecognized_iff (line : Str) :
    memRecognized line = true ↔
      (hasPrefix line "MemTotal:".toList = true ∨
       hasPrefix line "MemFree:".toList = true ∨
       hasPrefix line "MemAvailable:".toList = true ∨
       hasPrefix line "Buffers:".toList = true ∨
       hasPrefix line "Cached:".toList = true) := by
  simp [memRecognized, memPrefixes]

theorem parseMemInfo_eq_setAll (text : Str) :
    parseMemInfo text = setAll ((split text '\n').filterMap memLine) [] := by
  unfold parseMemInfo
  refine foldl_eq_setAll _ memLine ?_ _ _
  intro m l
  unfold memLine
  by_cases hr : memRecognized l = true
  · have hr' := (memRecognized_iff l).mp hr
    by_cases hlen : 2 ≤ (fields l).length
    · simp only [hr', hr, hlen, and_self, ↓reduceIte]
    · simp only [hr', hr, hlen, and_false, ↓reduceIte]
  · have hr' : ¬ (hasPrefix l "MemTotal:".toList = true ∨
       hasPrefix l "MemFree:".toList = true ∨
       hasPrefix l "MemAvailable:".toList = true ∨
       hasPrefix l "Buffers:".toList = true ∨
       hasPrefix l "Cached:".toList = true) := fun h => hr ((memRecognized_iff l).mpr h)
    have hn : ¬ (memRecognized l = true ∧ 2 ≤ (fields l).length) := fun h => hr h.1
    rw [if_neg hr', if_neg hn]

theorem trimSuffix_append_singleton (a : Str) (c : Char) : trimSuffix (a ++ [c]) [c] = a := by
  unfold trimSuffix
  have h : hasPrefix (a ++ [c]).reverse [c].reverse = true := by
    rw [List.reverse_append, List.reverse_singleton, List.singleton_append]
    simp [hasPrefix]
  rw [if_pos h, List.reverse_append, List.reverse_singleton, List.singleton_append]
  simp

theorem memPrefix_cases (f0 : Str) (h : f0 ∈ memPrefixes) :
    ∃ lbl ∈ memLabels, f0 = lbl ++ [':'] := by
  simp only [memPrefixes, List.mem_cons, List.mem_singleton, List.not_mem_nil, or_false] at h
  rcases h with h | h | h | h | h <;> subst h
  · exact ⟨"MemTotal".toList, by decide, by decide⟩
  · exact ⟨"MemFree".toList, by decide, by decide⟩
  · exact ⟨"MemAvailable".toList, by decide, by decide⟩
  · exact ⟨"Buffers".toList, by decide, by decide⟩
  · exact ⟨"Cached".toList, by decide, by decide⟩

theorem memLine_eq_some_iff (l k v : Str)
    (hwf : memRecognized l = true → (fields l).getD 0 [] ∈ memPrefixes) :
    memLine l = some (k, v) ↔
      memRecognized l = true ∧ 2 ≤ (fields l).length ∧
        (fields l).getD 0 [] = k ++ [':'] ∧ v = join ((fields l).drop 1) " ".toList := by
  unfold memLine
  by_cases hc : memRecognized l = true ∧ 2 ≤ (fields l).length
  · rw [if_pos hc]
    obtain ⟨lbl, -, hlbl⟩ := memPrefix_cases _ (hwf hc.1)
    have hts : trimSuffix ((fields l).getD 0 []) ":".toList = lbl := by
      rw [hlbl]; exact trimSuffix_append_singleton lbl ':'
    simp only [Option.some.injEq, Prod.mk.injEq, hts, hc, true_and]
    constructor
    · rintro ⟨rfl, rfl⟩
      exact ⟨hlbl, rfl⟩
    · rintro ⟨h1, h2⟩
      rw [hlbl] at h1
      exact ⟨List.append_cancel_right h1, h2.symm⟩
  · rw [if_neg hc]
    simp only [reduceCtorEq, false_iff]
    rintro ⟨h1, h2, -⟩
    exact hc ⟨h1, h2⟩

/-- C13, as stated, fails: a recognised line whose label is not followed by
white space binds a key outside the five labels, and a key stays bound by an
earlier line when the last line starting with its prefix has no field after
the label. -/
theorem memory_keys_and_last_line :
    parseMemInfo "Cached:x y".toList = [("Cached:x".toList, "y".toList)] ∧
    "Cached:x".toList ∉ memLabels ∧
    mapGet (parseMemInfo "MemTotal: 1 kB\nMemTotal:".toList) "MemTotal".toList
      = some "1 kB".toList := by decide

/-- C13, amended: for every meminfo text in which each line starting with one
of the five prefixes has that prefix as its whole first field, the keys of the
memory mapping are among the five labels, and a label `k` is bound to `v`
exactly when `v` is the fields after the label, joined by single spaces, of
the last line that starts with a recognised prefix, has `k:` as first field
and has at least one further field; lines starting with none of the five
prefixes, and lines with no field after the label, are ignored. -/
theorem memory_binding_iff (text : Str)
    (hwf : ∀ l ∈ split text '\n', memRecognized l = true →
      (fields l).getD 0 [] ∈ memPrefixes) :
    (∀ k ∈ mapKeys (parseMemInfo text), k ∈ memLabels) ∧
    (∀ k v, mapGet (parseMemInfo text) k = some v ↔
      ∃ pre l post, split text '\n' = pre ++ l :: post ∧
        memRecognized l = true ∧ 2 ≤ (fields l).length ∧
        (fields l).getD 0 [] = k ++ [':'] ∧ v = join ((fields l).drop 1) " ".toList ∧
        ∀ l' ∈ post, memRecognized l' = true → 2 ≤ (fields l').length →
          (fields l').getD 0 [] ≠ k ++ [':']) := by
  have hiff : ∀ k v, mapGet (parseMemInfo text) k = some v ↔
      ∃ pre l post, split text '\n' = pre ++ l :: post ∧
        memRecognized l = true ∧ 2 ≤ (fields l).length ∧
        (fields l).getD 0 [] = k ++ [':'] ∧ v = join ((fields l).drop 1) " ".toList ∧
        ∀ l' ∈ post, memRecognized l' = true → 2 ≤ (fields l').length →
          (fields l').getD 0 [] ≠ k ++ [':'] := by
    intro k v
    rw [parseMemInfo_eq_setAll, mapGet_setAll_nil, lastBinding_filterMap_some]
    constructor
    · rintro ⟨pre, l, post, h1, h2, h3⟩
      have hl : l ∈ split text '\n' := by rw [h1]; simp
      obtain ⟨ha, hb, hc, hd⟩ := (memLine_eq_some_iff l k v (hwf l hl)).mp h2
      refine ⟨pre, l, post, h1, ha, hb, hc, hd, ?_⟩
      intro l' hl' hx hy hz
      have hl'' : l' ∈ split text '\n' := by rw [h1]; simp [hl']
      exact h3 l' hl' _ ((memLine_eq_some_iff l' k _ (hwf l' hl'')).mpr ⟨hx, hy, hz, rfl⟩)
    · rintro ⟨pre, l, post, h1, ha, hb, hc, hd, h3⟩
      have hl : l ∈ split text '\n' := by rw [h1]; simp
      refine ⟨pre, l, post, h1, (memLine_eq_some_iff l k v (hwf l hl)).mpr ⟨ha, hb, hc, hd⟩, ?_⟩
      intro l' hl' v' hz
      have hl'' : l' ∈ split text '\n' := by rw [h1]; simp [hl']
      obtain ⟨hx, hy, hw, -⟩ := (memLine_eq_some_iff l' k v' (hwf l' hl'')).mp hz
      exact h3 l' hl' hx hy hw
  refine ⟨?_, hiff⟩
  intro k hk
  obtain ⟨v, hv⟩ := Option.isSome_iff_exists.mp ((mapGet_isSome_iff _ k).mpr hk)
  obtain ⟨pre, l, post, h1, ha, -, hc, -⟩ := (hiff k v).mp hv
  have hl : l ∈ split text '\n' := by rw [h1]; simp
  obtain ⟨lbl, hmem, hlbl⟩ := memPrefix_cases _ (hwf l hl ha)
  rw [hc] at hlbl
  rw [List.append_cancel_right hlbl]
  exact hmem

theorem memory_binding_iff_witness :
    (∀ k ∈ mapKeys (parseMemInfo memSample), k ∈ memLabels) ∧
    (∀ k v, mapGet (parseMemInfo memSample) k = some v ↔
      ∃ pre l post, split memSample '\n' = pre ++ l :: post ∧
        memRecognized l = true ∧ 2 ≤ (fields l).length ∧
        (fields l).getD 0 [] = k ++ [':'] ∧ v = join ((fields l).drop 1) " ".toList ∧
        ∀ l' ∈ post, memRecognized l' = true → 2 ≤ (fields l').length →
          (fields l').getD 0 [] ≠ k ++ [':']) :=
  memory_binding_iff memSample (by decide)

theorem memSample_parsed :
    parseMemInfo memSample
      = [("MemTotal".toList, "200 kB".toList), ("MemFree".toList, "40 kB".toList)] := by
  decide

/-! ## Handler `system`: the cpuinfo parser -/

theorem foldl_cpu (step : Nat × Str → Str → Nat × Str)
    (hstep : ∀ st l, step st l
      = (st.1 + (if hasPrefix l "processor".toList = true then 1 else 0),
         if st.2 = [] then modelOfLine l else st.2))
    (ls : List Str) (st : Nat × Str) :
    ls.foldl step st
      = (st.1 + ls.countP (fun l => hasPrefix l "processor".toList),
         if st.2 = [] then
           ((ls.map modelOfLine).find? (fun m => decide (m ≠ []))).getD []
         else st.2) := by
  induction ls generalizing st with
  | nil =>
    obtain ⟨n, m⟩ := st
    by_cases hm : m = []
    · simp [hm]
    · simp [hm]
  | cons l ls ih =>
    obtain ⟨n, m⟩ := st
    rw [List.foldl_cons, ih, hstep]
    simp only [List.countP_cons, List.map_cons, List.find?_cons]
    refine Prod.ext ?_ ?_
    · simp only
      omega
    · simp only
      by_cases hm : m = []
      · by_cases hl : modelOfLine l = []
        · simp [hm, hl]
        · simp [hm, hl]
      · simp [hm]

theorem parseCpuInfo_eq (text : Str) :
    parseCpuInfo text
      = ((split text '\n').countP (fun l => hasPrefix l "processor".toList),
         (((split text '\n').map modelOfLine).find? (fun m => decide (m ≠ []))).getD []) := by
  unfold parseCpuInfo
  rw [foldl_cpu]
  · simp
  · intro st l
    obtain ⟨n, m⟩ := st
    refine Prod.ext ?_ ?_
    · simp only
      split_ifs <;> rfl
    · simp only
      unfold modelOfLine
      by_cases hp : hasPrefix l "model name".toList = true
      · by_cases hm : m = []
        · subst hm
          simp only [hp, and_self, ↓reduceIte]
        · simp only [hp, hm, and_false, ↓reduceIte]
      · have hn : ∀ m' : Str, ¬ (hasPrefix l "model name".toList = true ∧ m' = []) :=
          fun _ h => hp h.1
        rw [if_neg (hn m), if_neg hp]
        split_ifs with hm
        · exact hm
        · rfl

/-- C14, as stated, fails: the two texts have the same first line beginning
with `model name` (it has nothing after its `:`) and differ only in a later
`model name` line, yet the reported model differs: it is taken from the later
line. -/
theorem cpu_model_from_later_line :
    (parseCpuInfo cpuSampleA).2 = "A".toList ∧
    (parseCpuInfo cpuSampleB).2 = "B".toList ∧
    (split cpuSampleA '\n').take 3 = (split cpuSampleB '\n').take 3 ∧
    ((split cpuSampleA '\n').take 3).filter (fun l => hasPrefix l "model name".toList)
      = ["model name :".toList] := by decide

/-- C14, amended: `cpu.model` is the model offered by the first line that
offers a non-empty one, that is the first line beginning with `model name`
that holds a `:` followed by text that is not all white space, and it is the
trimmed text after that line's first `:`; the lines after that line are
ignored, whatever they are. A line beginning with `model name` that offers
no such text does not count, and when no line qualifies the model is empty. -/
theorem cpu_model_first_nonempty (text : Str) :
    (parseCpuInfo text).2
      = (((split text '\n').map modelOfLine).find? (fun m => decide (m ≠ []))).getD [] ∧
    (∀ pre l post, split text '\n' = pre ++ l :: post →
      (∀ x ∈ pre, modelOfLine x = []) → modelOfLine l ≠ [] →
      (parseCpuInfo text).2 = modelOfLine l) ∧
    ((∀ x ∈ split text '\n', modelOfLine x = []) → (parseCpuInfo text).2 = []) ∧
    (∀ l k v, hasPrefix l "model name".toList = true → l = k ++ ':' :: v → ':' ∉ k →
      modelOfLine l = trimSpace v) := by
  rw [parseCpuInfo_eq]
  refine ⟨rfl, ?_, ?_, ?_⟩
  · intro pre l post hsplit hpre hl
    simp only [hsplit, List.map_append, List.map_cons]
    have hfind : ∀ (xs : List Str) (rest : List Str), (∀ x ∈ xs, modelOfLine x = []) →
        ((xs.map modelOfLine ++ rest).find? (fun m => decide (m ≠ [])))
          = rest.find? (fun m => decide (m ≠ [])) := by
      intro xs rest hxs
      induction xs with
      | nil => rfl
      | cons x xs ih =>
        have hx : modelOfLine x = [] := hxs x (List.mem_cons_self _ _)
        rw [List.map_cons, List.cons_append, List.find?_cons, hx]
        simp only [ne_eq, not_true_eq_false, decide_False]
        exact ih (fun y hy => hxs y (List.mem_cons_of_mem _ hy))
    rw [hfind pre _ hpre, List.find?_cons]
    simp [hl]
  · intro hall
    have : ((split text '\n').map modelOfLine).find? (fun m => decide (m ≠ [])) = none := by
      rw [List.find?_eq_none]
      intro m hm
      rw [List.mem_map] at hm
      obtain ⟨x, hx, rfl⟩ := hm
      simp [hall x hx]
    simp only [this, Option.getD_none]
  · intro l k v hp hl hk
    unfold modelOfLine
    rw [if_pos hp, (splitN2_eq_pair_iff l k v ':').mpr ⟨hl, hk⟩]

theorem parseCpuInfo_example :
    parseCpuInfo "processor\t: 0\nmodel name\t: Fast CPU @ 3GHz \nprocessor\t: 1\nmodel name\t: Other".toList
      = (2, "Fast CPU @ 3GHz".toList) := by decide

/-! ## Handler `network`: invariant of the resolver parser -/

theorem trimSpace_getLast (s : Str) (c : Char) (h : (trimSpace s).getLast? = some c) :
    isSpace c = false := by
  unfold trimSpace at h
  rw [List.getLast?_reverse] at h
  have := List.head?_dropWhile_not isSpace (s.dropWhile isSpace).reverse
  rw [h] at this
  exact this

theorem fieldsGo_clean (s cur : Str) (hcur : ∀ c ∈ cur, isSpace c = false) :
    ∀ fld ∈ fieldsGo cur s, fld ≠ [] ∧ ∀ c ∈ fld, isSpace c = false := by
  induction s generalizing cur with
  | nil =>
    intro fld hf
    unfold fieldsGo at hf
    split_ifs at hf with hc
    · cases hf
    · rw [List.mem_singleton] at hf
      subst hf
      exact ⟨hc, hcur⟩
  | cons a s ih =>
    intro fld hf
    unfold fieldsGo at hf
    by_cases ha : isSpace a = true
    · rw [if_pos ha] at hf
      split_ifs at hf with hc
      · exact ih [] (fun c hc' => by cases hc') fld hf
      · rcases List.mem_cons.mp hf with e | hm
        · subst e
          exact ⟨hc, hcur⟩
        · exact ih [] (fun c hc' => by cases hc') fld hm
    · rw [if_neg ha] at hf
      refine ih (cur ++ [a]) ?_ fld hf
      intro c hc
      rcases List.mem_append.mp hc with h1 | h1
      · exact hcur c h1
      · rw [List.mem_singleton] at h1
        subst h1
        simpa using ha

theorem fieldsGo_ne_nil (s cur : Str)
    (h : cur ≠ [] ∨ ∃ c ∈ s, isSpace c = false) : fieldsGo cur s ≠ [] := by
  induction s generalizing cur with
  | nil =>
    rcases h with h | ⟨c, hc, -⟩
    · unfold fieldsGo
      rw [if_neg h]
      exact List.cons_ne_nil _ _
    · cases hc
  | cons a s ih =>
    unfold fieldsGo
    by_cases ha : isSpace a = true
    · rw [if_pos ha]
      split_ifs with hc
      · apply ih
        rcases h with h | ⟨c, hc', hs⟩
        · exact absurd hc h
        · rcases List.mem_cons.mp hc' with e | hm
          · subst e
            rw [ha] at hs
            cases hs
          · exact Or.inr ⟨c, hm, hs⟩
      · exact List.cons_ne_nil _ _
    · rw [if_neg ha]
      apply ih
      left
      simp

theorem fields_clean (s : Str) :
    ∀ fld ∈ fields s, fld ≠ [] ∧ ∀ c ∈ fld, isSpace c = false :=
  fieldsGo_clean s [] (fun c hc => by cases hc)

theorem fields_ne_nil (s : Str) (h : ∃ c ∈ s, isSpace c = false) : fields s ≠ [] :=
  fieldsGo_ne_nil s [] (Or.inr h)

/-- The text after a prefix `p` ending in a blank, on a trimmed line that
begins with `p`, is non-empty and ends in a rune that is not white space. -/
theorem drop_prefix_of_trimmed (x p : Str) (c0 : Char) (hp0 : p.getLast? = some c0)
    (hsp : isSpace c0 = true) (h : hasPrefix (trimSpace x) p = true) :
    (trimSpace x).drop p.length ≠ [] ∧
    ∀ c, ((trimSpace x).drop p.length).getLast? = some c → isSpace c = false := by
  have hpre := (hasPrefix_iff _ _).mp h
  have happ := List.prefix_iff_eq_append.mp hpre
  constructor
  · intro hnil
    rw [hnil, List.append_nil] at happ
    have := trimSpace_getLast x c0 (by rw [← happ]; exact hp0)
    rw [hsp] at this
    cases this
  · intro c hc
    rw [List.getLast?_drop] at hc
    split_ifs at hc
    exact trimSpace_getLast x c hc

/-- C19: every element of `nameservers` is a non-empty string whose last rune
is not white space; `searchDomains` is empty exactly when no line of the text
begins with `search ` after trimming; and every search domain is non-empty
and holds no white space. -/
theorem resolv_invariant (text : Str) :
    (∀ ns ∈ (parseResolv text).1,
      ns ≠ [] ∧ ∀ c, ns.getLast? = some c → isSpace c = false) ∧
    ((parseResolv text).2 = [] ↔
      ∀ l ∈ split text '\n', hasPrefix (trimSpace l) "search ".toList = false) ∧
    (∀ d ∈ (parseResolv text).2, d ≠ [] ∧ ∀ c ∈ d, isSpace c = false) := by
  have hpr : parseResolv text
      = ((nameserverLines text).map (fun l => l.drop "nameserver ".toList.length),
         match (searchLines text).getLast? with
         | none => []
         | some l => fields (l.drop "search ".toList.length)) := by
    unfold parseResolv nameserverLines searchLines
    rw [resolvFold, List.nil_append]
  rw [hpr]
  refine ⟨?_, ?_, ?_⟩
  · intro ns hns
    simp only [nameserverLines, List.mem_map, List.mem_filter] at hns
    obtain ⟨l, ⟨⟨x, -, rfl⟩, hpfx⟩, rfl⟩ := hns
    exact drop_prefix_of_trimmed x "nameserver ".toList ' ' (by decide) (by decide) hpfx
  · simp only
    cases hlast : (searchLines text).getLast? with
    | none =>
      simp only [true_iff]
      have hnil : searchLines text = [] := List.getLast?_eq_none_iff.mp hlast
      intro l hl
      unfold searchLines at hnil
      rw [List.filter_eq_nil_iff] at hnil
      have := hnil (trimSpace l) (List.mem_map.mpr ⟨l, hl, rfl⟩)
      simpa using this
    | some l =>
      have hmem : l ∈ searchLines text := List.mem_of_getLast?_eq_some hlast
      simp only [searchLines, List.mem_filter, List.mem_map] at hmem
      obtain ⟨⟨x, hx, rfl⟩, hpfx⟩ := hmem
      obtain ⟨hne, hlastc⟩ :=
        drop_prefix_of_trimmed x "search ".toList ' ' (by decide) (by decide) hpfx
      have hfields : fields ((trimSpace x).drop "search ".toList.length) ≠ [] := by
        apply fields_ne_nil
        obtain ⟨c, hc⟩ := Option.isSome_iff_exists.mp
          (by
            cases hg : ((trimSpace x).drop "search ".toList.length).getLast? with
            | none => exact absurd (List.getLast?_eq_none_iff.mp hg) hne
            | some c => rfl :
            (((trimSpace x).drop "search ".toList.length).getLast?).isSome = true)
        exact ⟨c, List.mem_of_getLast?_eq_some hc, hlastc c hc⟩
      simp only [hfields, false_iff]
      intro hall
      have := hall x hx
      rw [hpfx] at this
      cases this
  · intro d hd
    simp only at hd
    cases hlast : (searchLines text).getLast? with
    | none => rw [hlast] at hd; cases hd
    | some l =>
      rw [hlast] at hd
      exact fields_clean _ d hd

/-! ## Handler `env`: entries of an environment with distinct keys -/

theorem lastBinding_envLine_distinct (lowerRune : Char → Char) (filter : Str)
    (environ : List Str) (hdistinct : ((envBindings environ).map Prod.fst).Nodup)
    (k v : Str) :
    lastBinding (environ.filterMap (envLine lowerRune filter)) k = some v ↔
      contains (toLower lowerRune k) (toLower lowerRune filter) = true ∧ '=' ∉ k ∧
      k ++ '=' :: v ∈ environ := by
  rw [lastBinding_of_nodup _
    (hdistinct.sublist (filterMap_envLine_sublist lowerRune filter environ)),
    List.mem_filterMap]
  constructor
  · rintro ⟨e, he, hl⟩
    obtain ⟨rfl, hk, hc⟩ := (envLine_eq_some_iff _ _ _ _ _).mp hl
    exact ⟨hc, hk, he⟩
  · rintro ⟨hc, hk, he⟩
    exact ⟨_, he, (envLine_eq_some_iff _ _ _ _ _).mpr ⟨rfl, hk, hc⟩⟩

/-- C15: in an environment as `os.Environ()` returns it (no key occurs
twice), every entry `k=v`, where `k` holds no `=`, is reported by `/env` with
an empty filter under the name `k` with the value `v`, which is everything
after the first `=`, further `=` included; entries without any `=` are not
reported: every reported variable stems from an entry that holds an `=`, and
leaving the entries without `=` out of the environment does not change the
response. -/
theorem env_reports_split_entry (lowerRune : Char → Char) (os : OS) (k v : Str)
    (hdistinct : ((envBindings os.environ).map Prod.fst).Nodup)
    (hmem : k ++ '=' :: v ∈ os.environ) (hk : '=' ∉ k) :
    [("name".toList, k), ("value".toList, v)] ∈ envVariables lowerRune [] os.environ ∧
    (∀ entry ∈ envVariables lowerRune [] os.environ, ∃ k' v',
      entry = [("name".toList, k'), ("value".toList, v')] ∧
      k' ++ '=' :: v' ∈ os.environ ∧ '=' ∉ k') ∧
    envVariables lowerRune [] (os.environ.filter (fun e => decide ('=' ∈ e)))
      = envVariables lowerRune [] os.environ := by
  refine ⟨?_, ?_, ?_⟩
  · rw [mem_envVariables]
    refine ⟨k, v, rfl, ?_⟩
    rw [lastBinding_envLine_distinct _ _ _ hdistinct]
    exact ⟨by rw [← keptBy_eq]; rfl, hk, hmem⟩
  · intro entry hentry
    rw [mem_envVariables] at hentry
    obtain ⟨k', v', h1, h2⟩ := hentry
    rw [lastBinding_envLine_distinct _ _ _ hdistinct] at h2
    exact ⟨k', v', h1, h2.2.2, h2.2.1⟩
  · unfold envVariables envVars
    rw [envFold_eq_setAll, envFold_eq_setAll, filterMap_envLine_filter]

theorem env_reports_split_entry_witness :
    [("name".toList, "A".toList), ("value".toList, "b=c".toList)]
      ∈ envVariables Char.toLower [] (osWithEnv envSample).environ ∧
    (∀ entry ∈ envVariables Char.toLower [] (osWithEnv envSample).environ, ∃ k' v',
      entry = [("name".toList, k'), ("value".toList, v')] ∧
      k' ++ '=' :: v' ∈ (osWithEnv envSample).environ ∧ '=' ∉ k') ∧
    envVariables Char.toLower [] ((osWithEnv envSample).environ.filter
        (fun e => decide ('=' ∈ e)))
      = envVariables Char.toLower [] (osWithEnv envSample).environ :=
  env_reports_split_entry Char.toLower (osWithEnv envSample) "A".toList "b=c".toList
    (by decide) (by decide) (by decide)

theorem envSample_reported :
    envVariables Char.toLower [] envSample
      = [[("name".toList, "A".toList), ("value".toList, "b=c".toList)],
         [("name".toList, "HOME".toList), ("value".toList, "/root".toList)]] := by decide

/-- C18: in an environment as `os.Environ()` returns it (no key occurs
twice) and for every filter `f`, the names under `variables` are strictly
ascending (so no name occurs twice); a name `k` is reported exactly when some
entry of the environment is `k=v` (cut at its first `=`) and `k` contains `f`
case-insensitively, so no such key is lost; and the value reported with `k`
is the value of the last entry of the environment with the key `k`, which is
the one entry with that key. -/
theorem env_exact_content (lowerRune : Char → Char) (os : OS) (f : Str)
    (hdistinct : ((envBindings os.environ).map Prod.fst).Nodup) :
    ((envVariables lowerRune f os.environ).map entryName).Pairwise
      (fun a b => strLt a b = true) ∧
    (∀ k, k ∈ (envVariables lowerRune f os.environ).map entryName ↔
      ∃ e ∈ os.environ, ∃ v, e = k ++ '=' :: v ∧ '=' ∉ k ∧
        contains (toLower lowerRune k) (toLower lowerRune f) = true) ∧
    (∀ entry, entry ∈ envVariables lowerRune f os.environ ↔
      ∃ k v, entry = [("name".toList, k), ("value".toList, v)] ∧
        contains (toLower lowerRune k) (toLower lowerRune f) = true ∧ '=' ∉ k ∧
        ∃ pre post, os.environ = pre ++ (k ++ '=' :: v) :: post ∧
          ∀ e ∈ post, ∀ v', e ≠ k ++ '=' :: v') ∧
    (∀ entry, entry ∈ envVariables lowerRune f os.environ ↔
      ∃ k v, entry = [("name".toList, k), ("value".toList, v)] ∧
        contains (toLower lowerRune k) (toLower lowerRune f) = true ∧ '=' ∉ k ∧
        k ++ '=' :: v ∈ os.environ) := by
  refine ⟨?_, ?_, ?_, ?_⟩
  · unfold envVariables
    rw [sortedEnvOf_names]
    exact strLt_of_sorted_nodup _ (sortStrings_sorted _)
      ((sortStrings_perm _).nodup_iff.mpr (envVars_nodup _ _ _))
  · intro k
    unfold envVariables
    rw [sortedEnvOf_names, (sortStrings_perm _).mem_iff, envVars_keys]
    constructor
    · rintro ⟨e, he, v, hs, hc⟩
      obtain ⟨h1, h2⟩ := (splitN2_eq_pair_iff e k v '=').mp hs
      refine ⟨e, he, v, h1, h2, ?_⟩
      rw [← keptBy_eq]
      unfold keptBy
      rcases hc with hc | hc
      · simp [hc]
      · simp [hc]
    · rintro ⟨e, he, v, h1, h2, hc⟩
      exact ⟨e, he, v, (splitN2_eq_pair_iff e k v '=').mpr ⟨h1, h2⟩, Or.inr hc⟩
  · intro entry
    rw [mem_envVariables]
    constructor
    · rintro ⟨k, v, h1, h2⟩
      exact ⟨k, v, h1, (lastBinding_envLine_iff _ _ _ _ _).mp h2⟩
    · rintro ⟨k, v, h1, h2⟩
      exact ⟨k, v, h1, (lastBinding_envLine_iff _ _ _ _ _).mpr h2⟩
  · intro entry
    rw [mem_envVariables]
    constructor
    · rintro ⟨k, v, h1, h2⟩
      exact ⟨k, v, h1, (lastBinding_envLine_distinct _ _ _ hdistinct _ _).mp h2⟩
    · rintro ⟨k, v, h1, h2⟩
      exact ⟨k, v, h1, (lastBinding_envLine_distinct _ _ _ hdistinct _ _).mpr h2⟩

theorem env_exact_content_witness :
    ((envVariables Char.toLower "o".toList (osWithEnv envSample).environ).map
      entryName).Pairwise (fun a b => strLt a b = true) ∧
    (∀ k, k ∈ (envVariables Char.toLower "o".toList (osWithEnv envSample).environ).map
        entryName ↔
      ∃ e ∈ (osWithEnv envSample).environ, ∃ v, e = k ++ '=' :: v ∧ '=' ∉ k ∧
        contains (toLower Char.toLower k) (toLower Char.toLower "o".toList) = true) ∧
    (∀ entry, entry ∈ envVariables Char.toLower "o".toList (osWithEnv envSample).environ ↔
      ∃ k v, entry = [("name".toList, k), ("value".toList, v)] ∧
        contains (toLower Char.toLower k) (toLower Char.toLower "o".toList) = true ∧
        '=' ∉ k ∧
        ∃ pre post, (osWithEnv envSample).environ = pre ++ (k ++ '=' :: v) :: post ∧
          ∀ e ∈ post, ∀ v', e ≠ k ++ '=' :: v') ∧
    (∀ entry, entry ∈ envVariables Char.toLower "o".toList (osWithEnv envSample).environ ↔
      ∃ k v, entry = [("name".toList, k), ("value".toList, v)] ∧
        contains (toLower Char.toLower k) (toLower Char.toLower "o".toList) = true ∧
        '=' ∉ k ∧ k ++ '=' :: v ∈ (osWithEnv envSample).environ) :=
  env_exact_content Char.toLower (osWithEnv envSample) "o".toList (by decide)

theorem envSample_filtered :
    envVariables Char.toLower "o".toList envSample
      = [[("name".toList, "HOME".toList), ("value".toList, "/root".toList)]] := by decide

end DebugBackend
